import Mathlib

/-
Verification development for the PSP system memory manager interface
(src/src/user/pspsysmem.h).  The header declares the calling contract of
the firmware allocator; the allocator itself is firmware code that is not
part of the repository, so the executable model below is built from the
natural-language specification of that contract (partitions, blocks,
free-space tracker with low/high/fixed-address placement, coalescing on
free, a monotone identifier counter, and the process-wide compiled-SDK
version cell).  The alignment granularity, left implementation-defined by
the specification, is fixed at one byte here.
-/

namespace PspSysMem

/-- Modelled from the spec: a maximal contiguous run of unallocated
addresses inside a partition, an element of the free-space tracker. -/
structure FreeRange where
  base : Nat
  size : Nat
deriving DecidableEq

/-- Modelled from the spec: a live memory block inside the partition.
The id field is the unique handle returned to callers; name is the
advisory, not necessarily unique, label. -/
structure Block where
  id : Nat
  base : Nat
  size : Nat
  name : String
deriving DecidableEq

/-- Placement strategies, mirroring enum PspSysMemBlockTypes in the header
(PSP_SMEM_Low = 0, PSP_SMEM_High = 1, PSP_SMEM_Addr = 2). -/
inductive Placement where
  | low
  | high
  | addr
deriving DecidableEq

/-- Error taxonomy of the specification (section 7). -/
inductive Err where
  | invalidArgument
  | illegalPlacementType
  | unknownPartition
  | unknownBlock
  | outOfMemory
  | addressUnavailable
deriving DecidableEq

/-- Modelled from the spec: error codes are small negative integers from a
fixed taxonomy; exact values are implementation-defined, so the model
assigns one distinct negative code per condition. -/
def errCode : Err → Int
  | .invalidArgument => -1
  | .illegalPlacementType => -2
  | .unknownPartition => -3
  | .unknownBlock => -4
  | .outOfMemory => -5
  | .addressUnavailable => -6

/-- Modelled from the spec: the whole manager state for one partition
(the allocation domain [pbase, pbase+plen)), together with the live-block
table, the monotone identifier counter, the ghost history of all
identifiers ever issued, and the process-wide SDK-version and
devkit-version cells that the header also exposes.  The firmware state
itself is absent from the repository; every field follows the data model
of the specification. -/
structure KState where
  pbase : Nat
  plen : Nat
  free : List FreeRange
  blocks : List Block
  nextId : Nat
  issued : List Nat
  sdkVersion : Int
  devkitVer : Int
deriving DecidableEq

/-- Total number of free bytes recorded by the tracker. -/
def totalFree : List FreeRange → Nat
  | [] => 0
  | r :: rs => r.size + totalFree rs

/-- Size of the largest single free range (largest_free_contiguous). -/
def maxFree : List FreeRange → Nat
  | [] => 0
  | r :: rs => max r.size (maxFree rs)

/-- Sum of the sizes of the live blocks. -/
def sumBlocks : List Block → Nat
  | [] => 0
  | b :: bs => b.size + sumBlocks bs

/-- Modelled from the spec: Low placement search of the firmware
allocator.  Scans the tracker (kept sorted by base) for the
smallest-base free range of at least sz bytes and carves sz bytes from
its low end; returns the resolved base and the updated tracker. -/
def allocLow (sz : Nat) : List FreeRange → Option (Nat × List FreeRange)
  | [] => none
  | r :: rs =>
    if sz ≤ r.size then
      some (r.base, if r.size = sz then rs else ⟨r.base + sz, r.size - sz⟩ :: rs)
    else
      match allocLow sz rs with
      | none => none
      | some (a, rs2) => some (a, r :: rs2)

/-- Modelled from the spec: High placement search of the firmware
allocator.  Finds the largest-base free range of at least sz bytes and
carves sz bytes from its high end. -/
def allocHigh (sz : Nat) : List FreeRange → Option (Nat × List FreeRange)
  | [] => none
  | r :: rs =>
    match allocHigh sz rs with
    | some (a, rs2) => some (a, r :: rs2)
    | none =>
      if sz ≤ r.size then
        some (r.base + r.size - sz, if r.size = sz then rs else ⟨r.base, r.size - sz⟩ :: rs)
      else none

/-- Modelled from the spec: Addr placement of the firmware allocator.
Succeeds exactly when the requested range [a, a+sz) lies inside one free
range of the tracker, splitting that range around the request. -/
def allocAddr (a sz : Nat) : List FreeRange → Option (List FreeRange)
  | [] => none
  | r :: rs =>
    if r.base ≤ a ∧ a + sz ≤ r.base + r.size then
      some ((if r.base < a then [⟨r.base, a - r.base⟩] else []) ++
            (if a + sz < r.base + r.size then [⟨a + sz, r.base + r.size - (a + sz)⟩] else []) ++ rs)
    else
      match allocAddr a sz rs with
      | none => none
      | some rs2 => some (r :: rs2)

/-- Place the range [b, b+s) in front of the list, absorbing the head
when the two touch; helper of the coalescing insertion. -/
def mergeRight (b s : Nat) : List FreeRange → List FreeRange
  | [] => [⟨b, s⟩]
  | r2 :: rs2 =>
    if b + s = r2.base then ⟨b, s + r2.size⟩ :: rs2
    else ⟨b, s⟩ :: r2 :: rs2

/-- Modelled from the spec: return of a range [b, b+s) to the tracker
with immediate coalescing against adjacent free ranges, as required of
the firmware free operation. -/
def insertFree (b s : Nat) : List FreeRange → List FreeRange
  | [] => [⟨b, s⟩]
  | r :: rs =>
    if b + s < r.base then ⟨b, s⟩ :: r :: rs
    else if b + s = r.base then ⟨b, s + r.size⟩ :: rs
    else if r.base + r.size = b then mergeRight r.base (r.size + s) rs
    else r :: insertFree b s rs

/-- An address x is free when some tracker range contains it. -/
abbrev isFree (l : List FreeRange) (x : Nat) : Prop :=
  ∃ r ∈ l, r.base ≤ x ∧ x < r.base + r.size

/-- Record a successful allocation: new live block, bumped counter,
identifier appended to the ghost issue history. -/
def mkAlloc (s : KState) (name : String) (base sz : Nat) (free2 : List FreeRange) : KState :=
  { s with free := free2,
           blocks := ⟨s.nextId, base, sz, name⟩ :: s.blocks,
           nextId := s.nextId + 1,
           issued := s.nextId :: s.issued }

/-- Modelled from the spec: the shared allocator core behind both
allocation families (section 9 of the specification asks for one core).
Size is already known nonzero here; placement dispatches on the tracker
searches; errors return the state unchanged. -/
def allocCore (s : KState) (name : String) (p : Placement) (sz : Nat) (a : Nat) : Int × KState :=
  match p with
  | .low =>
    match allocLow sz s.free with
    | none => (errCode .outOfMemory, s)
    | some (base, free2) => ((s.nextId : Int), mkAlloc s name base sz free2)
  | .high =>
    match allocHigh sz s.free with
    | none => (errCode .outOfMemory, s)
    | some (base, free2) => ((s.nextId : Int), mkAlloc s name base sz free2)
  | .addr =>
    match allocAddr a sz s.free with
    | none => (errCode .addressUnavailable, s)
    | some free2 => ((s.nextId : Int), mkAlloc s name a sz free2)

/-- Decode the integer placement argument of the C interface. -/
def decodePlacement (t : Int) : Option Placement :=
  if t = 0 then some .low
  else if t = 1 then some .high
  else if t = 2 then some .addr
  else none

/-- Modelled from the spec: sceKernelAllocPartitionMemory, the family-1
allocation entry point declared in the header.  A zero size is rejected
as InvalidArgument, an unrecognized placement as IllegalPlacementType;
otherwise the shared core runs.  The result integer is the new block UID
on success and a negative error code on failure. -/
def sceKernelAllocPartitionMemory (s : KState) (name : String) (t : Int) (sz : Nat) (a : Nat) :
    Int × KState :=
  if sz = 0 then (errCode .invalidArgument, s)
  else
    match decodePlacement t with
    | none => (errCode .illegalPlacementType, s)
    | some p => allocCore s name p sz a

/-- Modelled from the spec: the shared free core behind both families.
Looks the identifier up in the live-block table; unknown identifiers fail
with UnknownBlock and change nothing; otherwise the block is removed and
its range returns to the tracker with coalescing. -/
def freeCore (s : KState) (blockid : Int) : Int × KState :=
  match s.blocks.find? (fun b => (b.id : Int) == blockid) with
  | none => (errCode .unknownBlock, s)
  | some b =>
    (0, { s with blocks := s.blocks.filter (fun x => x.id != b.id),
                 free := insertFree b.base b.size s.free })

/-- Modelled from the spec: sceKernelFreePartitionMemory (family 1). -/
def sceKernelFreePartitionMemory (s : KState) (blockid : Int) : Int × KState :=
  freeCore s blockid

/-- Modelled from the spec: sceKernelGetBlockHeadAddr (family 1): the
lowest address of the block, with 0 as the sentinel for an unknown
identifier (direct return, no separate error channel). -/
def sceKernelGetBlockHeadAddr (s : KState) (blockid : Int) : Int :=
  match s.blocks.find? (fun b => (b.id : Int) == blockid) with
  | none => 0
  | some b => (b.base : Int)

/-- Modelled from the spec: sceKernelAllocMemoryBlock (family 2).  The
name pointer must not be NULL (modelled as Option), only Low (0) and
High (1) placements are legal, the option structure is unused, and the
shared core serves the rest. -/
def sceKernelAllocMemoryBlock (s : KState) (name : Option String) (t : Int) (sz : Nat)
    (opt : Option Nat) : Int × KState :=
  match name with
  | none => (errCode .invalidArgument, s)
  | some n =>
    if t ≠ 0 ∧ t ≠ 1 then (errCode .illegalPlacementType, s)
    else if sz = 0 then (errCode .invalidArgument, s)
    else allocCore s n (if t = 0 then .low else .high) sz 0

/-- Modelled from the spec: sceKernelFreeMemoryBlock (family 2), thin
front end of the same free core. -/
def sceKernelFreeMemoryBlock (s : KState) (mbid : Int) : Int × KState :=
  freeCore s mbid

/-- Modelled from the spec: sceKernelGetMemoryBlockAddr (family 2),
two-step retrieval returning a status and writing the address through an
out-parameter (second component). -/
def sceKernelGetMemoryBlockAddr (s : KState) (mbid : Int) : Int × Nat :=
  match s.blocks.find? (fun b => (b.id : Int) == mbid) with
  | none => (errCode .unknownBlock, 0)
  | some b => (0, b.base)

/-- Modelled from the spec: sceKernelTotalFreeMemSize. -/
def sceKernelTotalFreeMemSize (s : KState) : Nat :=
  totalFree s.free

/-- Modelled from the spec: sceKernelMaxFreeMemSize. -/
def sceKernelMaxFreeMemSize (s : KState) : Nat :=
  maxFree s.free

/-- Modelled from the spec: sceKernelDevkitVersion, an informational
constant of the manager instance fixed at initialization. -/
def sceKernelDevkitVersion (s : KState) : Int :=
  s.devkitVer

/-- Modelled from the spec: sceKernelSetCompiledSdkVersion, a
process-wide mutable cell; storing always succeeds with status 0. -/
def sceKernelSetCompiledSdkVersion (s : KState) (v : Int) : Int × KState :=
  (0, { s with sdkVersion := v })

/-- Modelled from the spec: sceKernelGetCompiledSdkVersion, returning the
stored version, 0 while unset. -/
def sceKernelGetCompiledSdkVersion (s : KState) : Int :=
  s.sdkVersion

/-- One call through the public interface of the header. -/
inductive Op where
  | allocPart (name : String) (t : Int) (sz : Nat) (a : Nat)
  | freePart (blockid : Int)
  | allocBlock (name : Option String) (t : Int) (sz : Nat) (opt : Option Nat)
  | freeBlock (mbid : Int)
  | getBlockHead (blockid : Int)
  | getBlockAddr (mbid : Int)
  | totalFreeQ
  | maxFreeQ
  | devkitQ
  | setSdk (v : Int)
  | getSdk
deriving DecidableEq

/-- Run one interface call: result integer and successor state. -/
def runOp (s : KState) : Op → Int × KState
  | .allocPart n t sz a => sceKernelAllocPartitionMemory s n t sz a
  | .freePart blockid => sceKernelFreePartitionMemory s blockid
  | .allocBlock n t sz opt => sceKernelAllocMemoryBlock s n t sz opt
  | .freeBlock mbid => sceKernelFreeMemoryBlock s mbid
  | .getBlockHead blockid => (sceKernelGetBlockHeadAddr s blockid, s)
  | .getBlockAddr mbid => ((sceKernelGetMemoryBlockAddr s mbid).1, s)
  | .totalFreeQ => ((sceKernelTotalFreeMemSize s : Int), s)
  | .maxFreeQ => ((sceKernelMaxFreeMemSize s : Int), s)
  | .devkitQ => (sceKernelDevkitVersion s, s)
  | .setSdk v => sceKernelSetCompiledSdkVersion s v
  | .getSdk => (sceKernelGetCompiledSdkVersion s, s)

/-- Run a sequence of interface calls. -/
def execOps (l : List Op) (s : KState) : KState :=
  match l with
  | [] => s
  | op :: rest => execOps rest (runOp s op).2

/-- Initial manager state over the partition [pbase, pbase+plen) with an
initial tracker free0 (the part of the partition not consumed by
pre-existing reserved gaps), no live blocks, identifier counter 1, and
the SDK-version cell unset. -/
def initState (pbase plen : Nat) (free0 : List FreeRange) (fw : Int) : KState :=
  ⟨pbase, plen, free0, [], 1, [], 0, fw⟩

/-- A well-formed initial tracker: sorted with gaps between ranges,
positive sizes, all inside the partition. -/
abbrev WfInit (pbase plen : Nat) (free0 : List FreeRange) : Prop :=
  List.Pairwise (fun p q => p.base + p.size < q.base) free0 ∧
  ∀ r ∈ free0, 0 < r.size ∧ pbase ≤ r.base ∧ r.base + r.size ≤ pbase + plen

/-- A manager state reachable from some well-formed initial state through
a sequence of interface calls. -/
def Reachable (s : KState) : Prop :=
  ∃ pbase plen free0 fw l, WfInit pbase plen free0 ∧
    execOps l (initState pbase plen free0 fw) = s

/-- The internal consistency invariant of the model: tracker sorted,
coalesced and inside the partition; blocks positive, inside the
partition, mutually disjoint and disjoint from the tracker; identifiers
unique, recorded in the issue history, and below the counter. -/
abbrev Inv (s : KState) : Prop :=
  List.Pairwise (fun p q => p.base + p.size < q.base) s.free ∧
  (∀ r ∈ s.free, 0 < r.size) ∧
  (∀ r ∈ s.free, s.pbase ≤ r.base ∧ r.base + r.size ≤ s.pbase + s.plen) ∧
  (∀ b ∈ s.blocks, 0 < b.size) ∧
  (∀ b ∈ s.blocks, s.pbase ≤ b.base ∧ b.base + b.size ≤ s.pbase + s.plen) ∧
  List.Pairwise (fun p q => p.base + p.size ≤ q.base ∨ q.base + q.size ≤ p.base) s.blocks ∧
  (∀ b ∈ s.blocks, ∀ r ∈ s.free, b.base + b.size ≤ r.base ∨ r.base + r.size ≤ b.base) ∧
  (s.blocks.map Block.id).Nodup ∧
  (∀ b ∈ s.blocks, b.id ∈ s.issued) ∧
  (∀ i ∈ s.issued, i < s.nextId) ∧
  s.issued.Nodup

theorem le_maxFree_of_mem {l : List FreeRange} {r : FreeRange} (h : r ∈ l) :
    r.size ≤ maxFree l := by
  induction l with
  | nil => cases h
  | cons x xs ih =>
    rcases List.mem_cons.mp h with rfl | h2
    · simp [maxFree]
    · simp only [maxFree]
      exact le_trans (ih h2) (le_max_right _ _)

theorem maxFree_le {l : List FreeRange} {n : Nat} (h : ∀ r ∈ l, r.size ≤ n) :
    maxFree l ≤ n := by
  induction l with
  | nil => simp [maxFree]
  | cons x xs ih =>
    simp only [maxFree, max_le_iff]
    exact ⟨h x (List.mem_cons_self _ _), ih fun r hr => h r (List.mem_cons_of_mem _ hr)⟩

theorem totalFree_le_of_bounds {l : List FreeRange} {lo hi : Nat}
    (hs : List.Pairwise (fun p q => p.base + p.size < q.base) l)
    (hb : ∀ r ∈ l, lo ≤ r.base ∧ r.base + r.size ≤ hi) :
    totalFree l ≤ hi - lo := by
  induction l generalizing lo with
  | nil => simp [totalFree]
  | cons r rs ih =>
    rw [List.pairwise_cons] at hs
    obtain ⟨hr, hs2⟩ := hs
    have hrb := hb r (List.mem_cons_self _ _)
    have htail : totalFree rs ≤ hi - (r.base + r.size) := by
      refine ih hs2 fun x hx => ?_
      have h1 := hb x (List.mem_cons_of_mem _ hx)
      have h2 := hr x hx
      omega
    simp only [totalFree]
    omega

theorem allocLow_none {sz : Nat} {l : List FreeRange} (h : allocLow sz l = none) :
    ∀ r ∈ l, r.size < sz := by
  induction l with
  | nil => simp
  | cons r rs ih =>
    by_cases hle : sz ≤ r.size
    · exfalso; simp [allocLow, hle] at h
    · cases hrec : allocLow sz rs with
      | none =>
        intro x hx
        rcases List.mem_cons.mp hx with rfl | hx2
        · omega
        · exact ih hrec x hx2
      | some p =>
        exfalso
        obtain ⟨a0, rs2⟩ := p
        simp [allocLow, hle, hrec] at h

theorem allocLow_spec {sz : Nat} {l : List FreeRange} {a : Nat} {l2 : List FreeRange}
    (hs : List.Pairwise (fun p q => p.base + p.size < q.base) l)
    (hp : ∀ r ∈ l, 0 < r.size)
    (h : allocLow sz l = some (a, l2)) :
    List.Pairwise (fun p q => p.base + p.size < q.base) l2 ∧
    (∀ r ∈ l2, 0 < r.size) ∧
    (∀ r ∈ l2, ∃ r0 ∈ l, r0.base ≤ r.base ∧ r.base + r.size ≤ r0.base + r0.size) ∧
    (∃ f ∈ l, sz ≤ f.size ∧ a = f.base ∧ ∀ g ∈ l, sz ≤ g.size → f.base ≤ g.base) ∧
    (∀ r ∈ l2, r.base + r.size ≤ a ∨ a + sz ≤ r.base) ∧
    totalFree l2 + sz = totalFree l := by
  induction l generalizing l2 with
  | nil => simp [allocLow] at h
  | cons r rs ih =>
    rw [List.pairwise_cons] at hs
    obtain ⟨hr, hs2⟩ := hs
    by_cases hle : sz ≤ r.size
    · by_cases heq : r.size = sz
      · rw [allocLow, if_pos hle, if_pos heq] at h
        rw [Option.some_inj, Prod.mk.injEq] at h
        obtain ⟨rfl, rfl⟩ := h
        refine ⟨hs2, fun x hx => hp x (List.mem_cons_of_mem _ hx), ?_, ?_, ?_, ?_⟩
        · exact fun x hx => ⟨x, List.mem_cons_of_mem _ hx, le_refl _, le_refl _⟩
        · refine ⟨r, List.mem_cons_self _ _, hle, rfl, ?_⟩
          intro g hg _
          rcases List.mem_cons.mp hg with rfl | hg2
          · exact le_refl _
          · have := hr g hg2; omega
        · intro x hx; have := hr x hx; right; omega
        · simp only [totalFree]; omega
      · rw [allocLow, if_pos hle, if_neg heq] at h
        rw [Option.some_inj, Prod.mk.injEq] at h
        obtain ⟨rfl, rfl⟩ := h
        refine ⟨?_, ?_, ?_, ?_, ?_, ?_⟩
        · rw [List.pairwise_cons]
          refine ⟨fun x hx => ?_, hs2⟩
          have := hr x hx; simp only; omega
        · intro x hx
          rcases List.mem_cons.mp hx with rfl | hx2
          · simp only; omega
          · exact hp x (List.mem_cons_of_mem _ hx2)
        · intro x hx
          rcases List.mem_cons.mp hx with rfl | hx2
          · exact ⟨r, List.mem_cons_self _ _, by simp only; omega, by simp only; omega⟩
          · exact ⟨x, List.mem_cons_of_mem _ hx2, le_refl _, le_refl _⟩
        · refine ⟨r, List.mem_cons_self _ _, hle, rfl, ?_⟩
          intro g hg _
          rcases List.mem_cons.mp hg with rfl | hg2
          · exact le_refl _
          · have := hr g hg2; omega
        · intro x hx
          rcases List.mem_cons.mp hx with rfl | hx2
          · right; simp only; omega
          · have := hr x hx2; right; omega
        · simp only [totalFree]; omega
    · cases hrec : allocLow sz rs with
      | none => rw [allocLow, if_neg hle, hrec] at h; cases h
      | some p =>
        obtain ⟨a0, rs2⟩ := p
        rw [allocLow, if_neg hle, hrec] at h
        rw [Option.some_inj, Prod.mk.injEq] at h
        obtain ⟨rfl, rfl⟩ := h
        obtain ⟨ih1, ih2, ih3, ih4, ih5, ih6⟩ :=
          ih hs2 (fun x hx => hp x (List.mem_cons_of_mem _ hx)) hrec
        refine ⟨?_, ?_, ?_, ?_, ?_, ?_⟩
        · rw [List.pairwise_cons]
          refine ⟨fun x hx => ?_, ih1⟩
          obtain ⟨r0, hr0, hbb, hee⟩ := ih3 x hx
          have := hr r0 hr0; omega
        · intro x hx
          rcases List.mem_cons.mp hx with rfl | hx2
          · exact hp x (List.mem_cons_self _ _)
          · exact ih2 x hx2
        · intro x hx
          rcases List.mem_cons.mp hx with rfl | hx2
          · exact ⟨x, List.mem_cons_self _ _, le_refl _, le_refl _⟩
          · obtain ⟨r0, hr0, hbb, hee⟩ := ih3 x hx2
            exact ⟨r0, List.mem_cons_of_mem _ hr0, hbb, hee⟩
        · obtain ⟨f, hf, hfsz, hfa, hmin⟩ := ih4
          refine ⟨f, List.mem_cons_of_mem _ hf, hfsz, hfa, ?_⟩
          intro g hg hgsz
          rcases List.mem_cons.mp hg with rfl | hg2
          · omega
          · exact hmin g hg2 hgsz
        · intro x hx
          rcases List.mem_cons.mp hx with rfl | hx2
          · obtain ⟨f, hf, hfsz, hfa, _⟩ := ih4
            have := hr f hf; left; omega
          · exact ih5 x hx2
        · simp only [totalFree] at *; omega

theorem allocHigh_none {sz : Nat} {l : List FreeRange} (h : allocHigh sz l = none) :
    ∀ r ∈ l, r.size < sz := by
  induction l with
  | nil => simp
  | cons r rs ih =>
    cases hrec : allocHigh sz rs with
    | some p => obtain ⟨a0, rs2⟩ := p; rw [allocHigh, hrec] at h; cases h
    | none =>
      rw [allocHigh, hrec] at h
      by_cases hle : sz ≤ r.size
      · rw [if_pos hle] at h; cases h
      · intro x hx
        rcases List.mem_cons.mp hx with rfl | hx2
        · omega
        · exact ih hrec x hx2

theorem allocHigh_spec {sz : Nat} {l : List FreeRange} {a : Nat} {l2 : List FreeRange}
    (hs : List.Pairwise (fun p q => p.base + p.size < q.base) l)
    (hp : ∀ r ∈ l, 0 < r.size)
    (h : allocHigh sz l = some (a, l2)) :
    List.Pairwise (fun p q => p.base + p.size < q.base) l2 ∧
    (∀ r ∈ l2, 0 < r.size) ∧
    (∀ r ∈ l2, ∃ r0 ∈ l, r0.base ≤ r.base ∧ r.base + r.size ≤ r0.base + r0.size) ∧
    (∃ f ∈ l, sz ≤ f.size ∧ f.base ≤ a ∧ a + sz = f.base + f.size ∧
      ∀ g ∈ l, sz ≤ g.size → g.base ≤ f.base) ∧
    (∀ r ∈ l2, r.base + r.size ≤ a ∨ a + sz ≤ r.base) ∧
    totalFree l2 + sz = totalFree l := by
  induction l generalizing l2 with
  | nil => simp [allocHigh] at h
  | cons r rs ih =>
    rw [List.pairwise_cons] at hs
    obtain ⟨hr, hs2⟩ := hs
    cases hrec : allocHigh sz rs with
    | some p =>
      obtain ⟨a0, rs2⟩ := p
      rw [allocHigh, hrec] at h
      rw [Option.some_inj, Prod.mk.injEq] at h
      obtain ⟨rfl, rfl⟩ := h
      obtain ⟨ih1, ih2, ih3, ih4, ih5, ih6⟩ :=
        ih hs2 (fun x hx => hp x (List.mem_cons_of_mem _ hx)) hrec
      refine ⟨?_, ?_, ?_, ?_, ?_, ?_⟩
      · rw [List.pairwise_cons]
        refine ⟨fun x hx => ?_, ih1⟩
        obtain ⟨r0, hr0, hbb, hee⟩ := ih3 x hx
        have := hr r0 hr0; omega
      · intro x hx
        rcases List.mem_cons.mp hx with rfl | hx2
        · exact hp x (List.mem_cons_self _ _)
        · exact ih2 x hx2
      · intro x hx
        rcases List.mem_cons.mp hx with rfl | hx2
        · exact ⟨x, List.mem_cons_self _ _, le_refl _, le_refl _⟩
        · obtain ⟨r0, hr0, hbb, hee⟩ := ih3 x hx2
          exact ⟨r0, List.mem_cons_of_mem _ hr0, hbb, hee⟩
      · obtain ⟨f, hf, hfsz, hfb, hfa, hmax⟩ := ih4
        refine ⟨f, List.mem_cons_of_mem _ hf, hfsz, hfb, hfa, ?_⟩
        intro g hg hgsz
        rcases List.mem_cons.mp hg with rfl | hg2
        · have := hr f hf; omega
        · exact hmax g hg2 hgsz
      · intro x hx
        rcases List.mem_cons.mp hx with rfl | hx2
        · obtain ⟨f, hf, hfsz, hfb, hfa, _⟩ := ih4
          have := hr f hf; left; omega
        · exact ih5 x hx2
      · simp only [totalFree] at *; omega
    | none =>
      rw [allocHigh, hrec] at h
      by_cases hle : sz ≤ r.size
      · rw [if_pos hle] at h
        have hnone := allocHigh_none hrec
        by_cases heq : r.size = sz
        · rw [if_pos heq] at h
          rw [Option.some_inj, Prod.mk.injEq] at h
          obtain ⟨rfl, rfl⟩ := h
          refine ⟨hs2, fun x hx => hp x (List.mem_cons_of_mem _ hx), ?_, ?_, ?_, ?_⟩
          · exact fun x hx => ⟨x, List.mem_cons_of_mem _ hx, le_refl _, le_refl _⟩
          · refine ⟨r, List.mem_cons_self _ _, hle, by omega, by omega, ?_⟩
            intro g hg hgsz
            rcases List.mem_cons.mp hg with rfl | hg2
            · exact le_refl _
            · have := hnone g hg2; omega
          · intro x hx; have := hr x hx; right; omega
          · simp only [totalFree]; omega
        · rw [if_neg heq] at h
          rw [Option.some_inj, Prod.mk.injEq] at h
          obtain ⟨rfl, rfl⟩ := h
          refine ⟨?_, ?_, ?_, ?_, ?_, ?_⟩
          · rw [List.pairwise_cons]
            refine ⟨fun x hx => ?_, hs2⟩
            have := hr x hx; simp only; omega
          · intro x hx
            rcases List.mem_cons.mp hx with rfl | hx2
            · simp only; omega
            · exact hp x (List.mem_cons_of_mem _ hx2)
          · intro x hx
            rcases List.mem_cons.mp hx with rfl | hx2
            · exact ⟨r, List.mem_cons_self _ _, by simp only; omega, by simp only; omega⟩
            · exact ⟨x, List.mem_cons_of_mem _ hx2, le_refl _, le_refl _⟩
          · refine ⟨r, List.mem_cons_self _ _, hle, by omega, by omega, ?_⟩
            intro g hg hgsz
            rcases List.mem_cons.mp hg with rfl | hg2
            · exact le_refl _
            · have := hnone g hg2; omega
          · intro x hx
            rcases List.mem_cons.mp hx with rfl | hx2
            · left; simp only; omega
            · have := hr x hx2; right; omega
          · simp only [totalFree]; omega
      · rw [if_neg hle] at h; cases h

theorem allocAddr_some_iff {a sz : Nat} {l : List FreeRange} :
    (∃ l2, allocAddr a sz l = some l2) ↔
    ∃ f ∈ l, f.base ≤ a ∧ a + sz ≤ f.base + f.size := by
  induction l with
  | nil => simp [allocAddr]
  | cons r rs ih =>
    by_cases hc : r.base ≤ a ∧ a + sz ≤ r.base + r.size
    · constructor
      · intro _; exact ⟨r, List.mem_cons_self _ _, hc.1, hc.2⟩
      · intro _; exact ⟨_, by rw [allocAddr, if_pos hc]⟩
    · cases hrec : allocAddr a sz rs with
      | none =>
        constructor
        · intro ⟨l2, hl2⟩
          rw [allocAddr, if_neg hc, hrec] at hl2; cases hl2
        · intro ⟨f, hf, hf1, hf2⟩
          rcases List.mem_cons.mp hf with rfl | hf3
          · exact absurd ⟨hf1, hf2⟩ hc
          · obtain ⟨l2, hl2⟩ := ih.mpr ⟨f, hf3, hf1, hf2⟩
            rw [hrec] at hl2; cases hl2
      | some rs2 =>
        constructor
        · intro _
          obtain ⟨f, hf, hf1, hf2⟩ := ih.mp ⟨rs2, hrec⟩
          exact ⟨f, List.mem_cons_of_mem _ hf, hf1, hf2⟩
        · intro _
          exact ⟨r :: rs2, by rw [allocAddr, if_neg hc, hrec]⟩

theorem allocAddr_spec {a sz : Nat} {l l2 : List FreeRange}
    (hs : List.Pairwise (fun p q => p.base + p.size < q.base) l)
    (hp : ∀ r ∈ l, 0 < r.size) (hsz : 0 < sz)
    (h : allocAddr a sz l = some l2) :
    List.Pairwise (fun p q => p.base + p.size < q.base) l2 ∧
    (∀ r ∈ l2, 0 < r.size) ∧
    (∀ r ∈ l2, ∃ r0 ∈ l, r0.base ≤ r.base ∧ r.base + r.size ≤ r0.base + r0.size) ∧
    (∃ f ∈ l, f.base ≤ a ∧ a + sz ≤ f.base + f.size) ∧
    (∀ r ∈ l2, r.base + r.size ≤ a ∨ a + sz ≤ r.base) ∧
    totalFree l2 + sz = totalFree l := by
  induction l generalizing l2 with
  | nil => simp [allocAddr] at h
  | cons r rs ih =>
    rw [List.pairwise_cons] at hs
    obtain ⟨hr, hs2⟩ := hs
    by_cases hc : r.base ≤ a ∧ a + sz ≤ r.base + r.size
    · rw [allocAddr, if_pos hc] at h
      obtain ⟨hc1, hc2⟩ := hc
      by_cases hL : r.base < a <;> by_cases hR : a + sz < r.base + r.size <;>
        simp only [if_pos, if_neg, hL, hR, if_true, if_false,
          List.singleton_append, List.nil_append, List.cons_append,
          Option.some_inj] at h <;> subst h
      · refine ⟨?_, ?_, ?_, ⟨r, List.mem_cons_self _ _, hc1, hc2⟩, ?_, ?_⟩
        · rw [List.pairwise_cons, List.pairwise_cons]
          refine ⟨?_, ?_, hs2⟩
          · intro x hx
            rcases List.mem_cons.mp hx with rfl | hx2
            · simp only; omega
            · have := hr x hx2; simp only; omega
          · intro x hx; have := hr x hx; simp only; omega
        · intro x hx
          rcases List.mem_cons.mp hx with rfl | hx2
          · simp only; omega
          · rcases List.mem_cons.mp hx2 with rfl | hx3
            · simp only; omega
            · exact hp x (List.mem_cons_of_mem _ hx3)
        · intro x hx
          rcases List.mem_cons.mp hx with rfl | hx2
          · exact ⟨r, List.mem_cons_self _ _, by simp only; omega, by simp only; omega⟩
          · rcases List.mem_cons.mp hx2 with rfl | hx3
            · exact ⟨r, List.mem_cons_self _ _, by simp only; omega, by simp only; omega⟩
            · exact ⟨x, List.mem_cons_of_mem _ hx3, le_refl _, le_refl _⟩
        · intro x hx
          rcases List.mem_cons.mp hx with rfl | hx2
          · left; simp only; omega
          · rcases List.mem_cons.mp hx2 with rfl | hx3
            · right; simp only; omega
            · have := hr x hx3; right; omega
        · simp only [totalFree]; omega
      · refine ⟨?_, ?_, ?_, ⟨r, List.mem_cons_self _ _, hc1, hc2⟩, ?_, ?_⟩
        · rw [List.pairwise_cons]
          refine ⟨fun x hx => ?_, hs2⟩
          have := hr x hx; simp only; omega
        · intro x hx
          rcases List.mem_cons.mp hx with rfl | hx2
          · simp only; omega
          · exact hp x (List.mem_cons_of_mem _ hx2)
        · intro x hx
          rcases List.mem_cons.mp hx with rfl | hx2
          · exact ⟨r, List.mem_cons_self _ _, by simp only; omega, by simp only; omega⟩
          · exact ⟨x, List.mem_cons_of_mem _ hx2, le_refl _, le_refl _⟩
        · intro x hx
          rcases List.mem_cons.mp hx with rfl | hx2
          · left; simp only; omega
          · have := hr x hx2; right; omega
        · simp only [totalFree]; omega
      · refine ⟨?_, ?_, ?_, ⟨r, List.mem_cons_self _ _, hc1, hc2⟩, ?_, ?_⟩
        · rw [List.pairwise_cons]
          refine ⟨fun x hx => ?_, hs2⟩
          have := hr x hx; simp only; omega
        · intro x hx
          rcases List.mem_cons.mp hx with rfl | hx2
          · simp only; omega
          · exact hp x (List.mem_cons_of_mem _ hx2)
        · intro x hx
          rcases List.mem_cons.mp hx with rfl | hx2
          · exact ⟨r, List.mem_cons_self _ _, by simp only; omega, by simp only; omega⟩
          · exact ⟨x, List.mem_cons_of_mem _ hx2, le_refl _, le_refl _⟩
        · intro x hx
          rcases List.mem_cons.mp hx with rfl | hx2
          · right; simp only; omega
          · have := hr x hx2; right; omega
        · simp only [totalFree]; omega
      · refine ⟨hs2, fun x hx => hp x (List.mem_cons_of_mem _ hx), ?_,
          ⟨r, List.mem_cons_self _ _, hc1, hc2⟩, ?_, ?_⟩
        · exact fun x hx => ⟨x, List.mem_cons_of_mem _ hx, le_refl _, le_refl _⟩
        · intro x hx; have := hr x hx; right; omega
        · simp only [totalFree]; omega
    · cases hrec : allocAddr a sz rs with
      | none => rw [allocAddr, if_neg hc, hrec] at h; cases h
      | some rs2 =>
        rw [allocAddr, if_neg hc, hrec, Option.some_inj] at h
        subst h
        obtain ⟨ih1, ih2, ih3, ih4, ih5, ih6⟩ :=
          ih hs2 (fun x hx => hp x (List.mem_cons_of_mem _ hx)) hrec
        refine ⟨?_, ?_, ?_, ?_, ?_, ?_⟩
        · rw [List.pairwise_cons]
          refine ⟨fun x hx => ?_, ih1⟩
          obtain ⟨r0, hr0, hbb, hee⟩ := ih3 x hx
          have := hr r0 hr0; omega
        · intro x hx
          rcases List.mem_cons.mp hx with rfl | hx2
          · exact hp x (List.mem_cons_self _ _)
          · exact ih2 x hx2
        · intro x hx
          rcases List.mem_cons.mp hx with rfl | hx2
          · exact ⟨x, List.mem_cons_self _ _, le_refl _, le_refl _⟩
          · obtain ⟨r0, hr0, hbb, hee⟩ := ih3 x hx2
            exact ⟨r0, List.mem_cons_of_mem _ hr0, hbb, hee⟩
        · obtain ⟨f, hf, hf1, hf2⟩ := ih4
          exact ⟨f, List.mem_cons_of_mem _ hf, hf1, hf2⟩
        · intro x hx
          rcases List.mem_cons.mp hx with rfl | hx2
          · obtain ⟨f, hf, hf1, hf2⟩ := ih4
            have := hr f hf; left; omega
          · exact ih5 x hx2
        · simp only [totalFree] at *; omega

theorem covered_sub {l : List FreeRange} {a sz : Nat}
    (hs : List.Pairwise (fun p q => p.base + p.size < q.base) l) (hsz : 0 < sz)
    (hcov : ∀ x, a ≤ x → x < a + sz → isFree l x) :
    ∃ f ∈ l, f.base ≤ a ∧ a + sz ≤ f.base + f.size := by
  induction l with
  | nil =>
    obtain ⟨r, hr, _⟩ := hcov a (le_refl _) (by omega)
    cases hr
  | cons r rs ih =>
    rw [List.pairwise_cons] at hs
    obtain ⟨hr, hs2⟩ := hs
    by_cases hra : r.base ≤ a ∧ a < r.base + r.size
    · by_cases hend : a + sz ≤ r.base + r.size
      · exact ⟨r, List.mem_cons_self _ _, hra.1, hend⟩
      · exfalso
        obtain ⟨q, hq, hq1, hq2⟩ := hcov (r.base + r.size) (by omega) (by omega)
        rcases List.mem_cons.mp hq with rfl | hq3
        · omega
        · have := hr q hq3; omega
    · obtain ⟨qa, hqa, hqa1, hqa2⟩ := hcov a (le_refl _) (by omega)
      have hqrs : qa ∈ rs := by
        rcases List.mem_cons.mp hqa with rfl | h2
        · exact absurd ⟨hqa1, hqa2⟩ hra
        · exact h2
      have hcov2 : ∀ x, a ≤ x → x < a + sz → isFree rs x := by
        intro x hx1 hx2
        obtain ⟨q, hq, hq1, hq2⟩ := hcov x hx1 hx2
        rcases List.mem_cons.mp hq with rfl | hq3
        · have := hr qa hqrs; omega
        · exact ⟨q, hq3, hq1, hq2⟩
      obtain ⟨f, hf, hf1, hf2⟩ := ih hs2 hcov2
      exact ⟨f, List.mem_cons_of_mem _ hf, hf1, hf2⟩

theorem mergeRight_total {b s : Nat} {l : List FreeRange} :
    totalFree (mergeRight b s l) = s + totalFree l := by
  cases l with
  | nil => simp [mergeRight, totalFree]
  | cons r2 rs2 =>
    rw [mergeRight]
    by_cases h : b + s = r2.base
    · rw [if_pos h]; simp only [totalFree]; omega
    · rw [if_neg h]; simp only [totalFree]

theorem insertFree_total {b s : Nat} {l : List FreeRange} :
    totalFree (insertFree b s l) = s + totalFree l := by
  induction l with
  | nil => simp [insertFree, totalFree]
  | cons r rs ih =>
    rw [insertFree]
    by_cases h1 : b + s < r.base
    · rw [if_pos h1]; simp only [totalFree]
    · rw [if_neg h1]
      by_cases h2 : b + s = r.base
      · rw [if_pos h2]; simp only [totalFree]; omega
      · rw [if_neg h2]
        by_cases h3 : r.base + r.size = b
        · rw [if_pos h3, mergeRight_total]; simp only [totalFree]; omega
        · rw [if_neg h3]; simp only [totalFree]; omega

theorem mergeRight_pred {P : FreeRange → Prop} {b s : Nat} {l : List FreeRange}
    (hmerge : ∀ p q : FreeRange, P p → P q → p.base + p.size = q.base →
      P ⟨p.base, p.size + q.size⟩)
    (hP : P ⟨b, s⟩) (hl : ∀ g ∈ l, P g) :
    ∀ x ∈ mergeRight b s l, P x := by
  cases l with
  | nil => intro x hx; rw [mergeRight, List.mem_singleton] at hx; subst hx; exact hP
  | cons r2 rs2 =>
    intro x hx
    rw [mergeRight] at hx
    by_cases h : b + s = r2.base
    · rw [if_pos h] at hx
      rcases List.mem_cons.mp hx with rfl | hx2
      · exact hmerge ⟨b, s⟩ r2 hP (hl r2 (List.mem_cons_self _ _)) h
      · exact hl x (List.mem_cons_of_mem _ hx2)
    · rw [if_neg h] at hx
      rcases List.mem_cons.mp hx with rfl | hx2
      · exact hP
      · exact hl x hx2

theorem insertFree_pred {P : FreeRange → Prop} {b s : Nat} {l : List FreeRange}
    (hmerge : ∀ p q : FreeRange, P p → P q → p.base + p.size = q.base →
      P ⟨p.base, p.size + q.size⟩)
    (hP : P ⟨b, s⟩) (hl : ∀ g ∈ l, P g) :
    ∀ x ∈ insertFree b s l, P x := by
  induction l with
  | nil => intro x hx; rw [insertFree, List.mem_singleton] at hx; subst hx; exact hP
  | cons r rs ih =>
    intro x hx
    have hrP := hl r (List.mem_cons_self _ _)
    have hlt : ∀ g ∈ rs, P g := fun g hg => hl g (List.mem_cons_of_mem _ hg)
    rw [insertFree] at hx
    by_cases h1 : b + s < r.base
    · rw [if_pos h1] at hx
      rcases List.mem_cons.mp hx with rfl | hx2
      · exact hP
      · exact hl x hx2
    · rw [if_neg h1] at hx
      by_cases h2 : b + s = r.base
      · rw [if_pos h2] at hx
        rcases List.mem_cons.mp hx with rfl | hx2
        · exact hmerge ⟨b, s⟩ r hP hrP h2
        · exact hlt x hx2
      · rw [if_neg h2] at hx
        by_cases h3 : r.base + r.size = b
        · rw [if_pos h3] at hx
          exact mergeRight_pred hmerge (hmerge r ⟨b, s⟩ hrP hP h3) hlt x hx
        · rw [if_neg h3] at hx
          rcases List.mem_cons.mp hx with rfl | hx2
          · exact hrP
          · exact ih hlt x hx2

theorem mergeRight_base_shape {b s : Nat} {l : List FreeRange} :
    ∀ x ∈ mergeRight b s l, x.base = b ∨ ∃ g ∈ l, x.base = g.base := by
  cases l with
  | nil => intro x hx; rw [mergeRight, List.mem_singleton] at hx; subst hx; left; rfl
  | cons r2 rs2 =>
    intro x hx
    rw [mergeRight] at hx
    by_cases h : b + s = r2.base
    · rw [if_pos h] at hx
      rcases List.mem_cons.mp hx with rfl | hx2
      · left; rfl
      · exact Or.inr ⟨x, List.mem_cons_of_mem _ hx2, rfl⟩
    · rw [if_neg h] at hx
      rcases List.mem_cons.mp hx with rfl | hx2
      · left; rfl
      · exact Or.inr ⟨x, hx2, rfl⟩

theorem insertFree_base_shape {b s : Nat} {l : List FreeRange} :
    ∀ x ∈ insertFree b s l, x.base = b ∨ ∃ g ∈ l, x.base = g.base := by
  induction l with
  | nil => intro x hx; rw [insertFree, List.mem_singleton] at hx; subst hx; left; rfl
  | cons r rs ih =>
    intro x hx
    rw [insertFree] at hx
    by_cases h1 : b + s < r.base
    · rw [if_pos h1] at hx
      rcases List.mem_cons.mp hx with rfl | hx2
      · left; rfl
      · exact Or.inr ⟨x, hx2, rfl⟩
    · rw [if_neg h1] at hx
      by_cases h2 : b + s = r.base
      · rw [if_pos h2] at hx
        rcases List.mem_cons.mp hx with rfl | hx2
        · left; rfl
        · exact Or.inr ⟨x, List.mem_cons_of_mem _ hx2, rfl⟩
      · rw [if_neg h2] at hx
        by_cases h3 : r.base + r.size = b
        · rw [if_pos h3] at hx
          rcases mergeRight_base_shape x hx with hb | ⟨g, hg, hgb⟩
          · exact Or.inr ⟨r, List.mem_cons_self _ _, hb⟩
          · exact Or.inr ⟨g, List.mem_cons_of_mem _ hg, hgb⟩
        · rw [if_neg h3] at hx
          rcases List.mem_cons.mp hx with rfl | hx2
          · exact Or.inr ⟨x, List.mem_cons_self _ _, rfl⟩
          · rcases ih x hx2 with hb | ⟨g, hg, hgb⟩
            · exact Or.inl hb
            · exact Or.inr ⟨g, List.mem_cons_of_mem _ hg, hgb⟩

theorem mergeRight_sorted {b s : Nat} {l : List FreeRange}
    (hs : List.Pairwise (fun p q => p.base + p.size < q.base) l)
    (hb : ∀ g ∈ l, b + s ≤ g.base) :
    List.Pairwise (fun p q => p.base + p.size < q.base) (mergeRight b s l) := by
  cases l with
  | nil => simp [mergeRight]
  | cons r2 rs2 =>
    rw [List.pairwise_cons] at hs
    obtain ⟨hr2, hs2⟩ := hs
    rw [mergeRight]
    by_cases h : b + s = r2.base
    · rw [if_pos h, List.pairwise_cons]
      refine ⟨fun g hg => ?_, hs2⟩
      have := hr2 g hg; simp only; omega
    · rw [if_neg h, List.pairwise_cons]
      refine ⟨fun g hg => ?_, List.pairwise_cons.mpr ⟨hr2, hs2⟩⟩
      rcases List.mem_cons.mp hg with rfl | hg2
      · have := hb g (List.mem_cons_self _ _); simp only; omega
      · have h1 := hb r2 (List.mem_cons_self _ _)
        have h2 := hr2 g hg2
        simp only; omega

theorem insertFree_sorted {b s : Nat} {l : List FreeRange}
    (hs : List.Pairwise (fun p q => p.base + p.size < q.base) l)
    (hp : ∀ g ∈ l, 0 < g.size) (hbs : 0 < s)
    (hd : ∀ g ∈ l, g.base + g.size ≤ b ∨ b + s ≤ g.base) :
    List.Pairwise (fun p q => p.base + p.size < q.base) (insertFree b s l) := by
  induction l with
  | nil => simp [insertFree]
  | cons r rs ih =>
    rw [List.pairwise_cons] at hs
    obtain ⟨hr, hs2⟩ := hs
    have hpt : ∀ g ∈ rs, 0 < g.size := fun g hg => hp g (List.mem_cons_of_mem _ hg)
    have hdt : ∀ g ∈ rs, g.base + g.size ≤ b ∨ b + s ≤ g.base :=
      fun g hg => hd g (List.mem_cons_of_mem _ hg)
    rw [insertFree]
    by_cases h1 : b + s < r.base
    · rw [if_pos h1, List.pairwise_cons]
      refine ⟨fun g hg => ?_, List.pairwise_cons.mpr ⟨hr, hs2⟩⟩
      rcases List.mem_cons.mp hg with rfl | hg2
      · simp only; omega
      · have := hr g hg2; simp only; omega
    · rw [if_neg h1]
      by_cases h2 : b + s = r.base
      · rw [if_pos h2, List.pairwise_cons]
        refine ⟨fun g hg => ?_, hs2⟩
        have := hr g hg; simp only; omega
      · rw [if_neg h2]
        by_cases h3 : r.base + r.size = b
        · rw [if_pos h3]
          refine mergeRight_sorted hs2 fun g hg => ?_
          have h4 := hr g hg
          have h5 := hp g (List.mem_cons_of_mem _ hg)
          rcases hd g (List.mem_cons_of_mem _ hg) with h6 | h6 <;> omega
        · rw [if_neg h3, List.pairwise_cons]
          have hrb : r.base + r.size < b := by
            rcases hd r (List.mem_cons_self _ _) with h5 | h5 <;> omega
          refine ⟨fun x hx => ?_, ih hs2 hpt hdt⟩
          rcases insertFree_base_shape x hx with hb | ⟨g, hg, hgb⟩
          · omega
          · have := hr g hg; omega

theorem mergeRight_mono {b s : Nat} {l : List FreeRange} :
    ∀ r0 ∈ l, ∃ x ∈ mergeRight b s l, r0.size ≤ x.size := by
  cases l with
  | nil => simp
  | cons r2 rs2 =>
    intro r0 h0
    rw [mergeRight]
    by_cases h : b + s = r2.base
    · rw [if_pos h]
      rcases List.mem_cons.mp h0 with rfl | h02
      · exact ⟨⟨b, s + r0.size⟩, List.mem_cons_self _ _, by simp only; omega⟩
      · exact ⟨r0, List.mem_cons_of_mem _ h02, le_refl _⟩
    · rw [if_neg h]
      exact ⟨r0, List.mem_cons_of_mem _ h0, le_refl _⟩

theorem mergeRight_big {b s : Nat} {l : List FreeRange} :
    ∃ x ∈ mergeRight b s l, x.base = b ∧ s ≤ x.size := by
  cases l with
  | nil => exact ⟨⟨b, s⟩, by simp [mergeRight], rfl, le_refl _⟩
  | cons r2 rs2 =>
    rw [mergeRight]
    by_cases h : b + s = r2.base
    · rw [if_pos h]
      exact ⟨⟨b, s + r2.size⟩, List.mem_cons_self _ _, rfl, by simp only; omega⟩
    · rw [if_neg h]
      exact ⟨⟨b, s⟩, List.mem_cons_self _ _, rfl, le_refl _⟩

theorem insertFree_mono {b s : Nat} {l : List FreeRange} :
    ∀ r0 ∈ l, ∃ x ∈ insertFree b s l, r0.size ≤ x.size := by
  induction l with
  | nil => simp
  | cons r rs ih =>
    intro r0 h0
    rw [insertFree]
    by_cases h1 : b + s < r.base
    · rw [if_pos h1]
      exact ⟨r0, List.mem_cons_of_mem _ h0, le_refl _⟩
    · rw [if_neg h1]
      by_cases h2 : b + s = r.base
      · rw [if_pos h2]
        rcases List.mem_cons.mp h0 with rfl | h02
        · exact ⟨⟨b, s + r0.size⟩, List.mem_cons_self _ _, by simp only; omega⟩
        · exact ⟨r0, List.mem_cons_of_mem _ h02, le_refl _⟩
      · rw [if_neg h2]
        by_cases h3 : r.base + r.size = b
        · rw [if_pos h3]
          rcases List.mem_cons.mp h0 with rfl | h02
          · obtain ⟨x, hx, _, hxs⟩ := mergeRight_big (b := r0.base) (s := r0.size + s) (l := rs)
            exact ⟨x, hx, by omega⟩
          · exact mergeRight_mono r0 h02
        · rw [if_neg h3]
          rcases List.mem_cons.mp h0 with rfl | h02
          · exact ⟨r0, List.mem_cons_self _ _, le_refl _⟩
          · obtain ⟨x, hx, hxs⟩ := ih r0 h02
            exact ⟨x, List.mem_cons_of_mem _ hx, hxs⟩

theorem insertFree_adj {b s : Nat} {l : List FreeRange} {r : FreeRange}
    (hs : List.Pairwise (fun p q => p.base + p.size < q.base) l)
    (hp : ∀ g ∈ l, 0 < g.size) (hbs : 0 < s)
    (hd : ∀ g ∈ l, g.base + g.size ≤ b ∨ b + s ≤ g.base)
    (hr : r ∈ l) (hadj : r.base + r.size = b ∨ b + s = r.base) :
    ∃ x ∈ insertFree b s l, x.base ≤ b ∧ b + s ≤ x.base + x.size ∧ s + r.size ≤ x.size := by
  induction l with
  | nil => cases hr
  | cons g gs ih =>
    rw [List.pairwise_cons] at hs
    obtain ⟨hg, hs2⟩ := hs
    have hpt : ∀ x ∈ gs, 0 < x.size := fun x hx => hp x (List.mem_cons_of_mem _ hx)
    have hdt : ∀ x ∈ gs, x.base + x.size ≤ b ∨ b + s ≤ x.base :=
      fun x hx => hd x (List.mem_cons_of_mem _ hx)
    rw [insertFree]
    by_cases h1 : b + s < g.base
    · exfalso
      rcases List.mem_cons.mp hr with rfl | hr2
      · rcases hadj with h | h <;> omega
      · have h4 := hg r hr2
        rcases hadj with h | h <;> omega
    · rw [if_neg h1]
      by_cases h2 : b + s = g.base
      · rw [if_pos h2]
        rcases List.mem_cons.mp hr with rfl | hr2
        · have hrpos := hp r (List.mem_cons_self _ _)
          have hradj : b + s = r.base := by rcases hadj with h | h <;> omega
          exact ⟨⟨b, s + r.size⟩, List.mem_cons_self _ _, le_refl _,
            by simp only; omega, by simp only; omega⟩
        · exfalso
          have h4 := hg r hr2
          have h5 := hp r (List.mem_cons_of_mem _ hr2)
          rcases hadj with h | h <;> omega
      · rw [if_neg h2]
        by_cases h3 : g.base + g.size = b
        · rw [if_pos h3]
          rcases List.mem_cons.mp hr with rfl | hr2
          · obtain ⟨x, hx, hxb, hxs⟩ := mergeRight_big (b := r.base) (s := r.size + s) (l := gs)
            exact ⟨x, hx, by omega, by omega, by omega⟩
          · have h4 := hg r hr2
            have h5 := hp r (List.mem_cons_of_mem _ hr2)
            have hradj : b + s = r.base := by rcases hadj with h | h <;> omega
            cases gs with
            | nil => cases hr2
            | cons r2 gs2 =>
              rcases List.mem_cons.mp hr2 with rfl | hr3
              · rw [mergeRight, if_pos (by omega : g.base + (g.size + s) = r.base)]
                exact ⟨⟨g.base, g.size + s + r.size⟩, List.mem_cons_self _ _,
                  by simp only; omega, by simp only; omega, by simp only; omega⟩
              · exfalso
                rw [List.pairwise_cons] at hs2
                have h6 := hs2.1 r hr3
                have h7 := hp r2 (List.mem_cons_of_mem _ (List.mem_cons_self _ _))
                have h8 := hg r2 (List.mem_cons_self _ _)
                rcases hdt r2 (List.mem_cons_self _ _) with h9 | h9 <;> omega
        · rw [if_neg h3]
          rcases List.mem_cons.mp hr with rfl | hr2
          · exfalso
            rcases hd r (List.mem_cons_self _ _) with h4 | h4 <;>
              rcases hadj with h | h <;> omega
          · obtain ⟨x, hx, hxb, hxe, hxs⟩ := ih hs2 hpt hdt hr2
            exact ⟨x, List.mem_cons_of_mem _ hx, hxb, hxe, hxs⟩

theorem find_block {blocks : List Block} {b : Block} {bid : Int}
    (hnd : (blocks.map Block.id).Nodup) (hb : b ∈ blocks) (hid : (b.id : Int) = bid) :
    blocks.find? (fun x => (x.id : Int) == bid) = some b := by
  induction blocks with
  | nil => cases hb
  | cons h hs ih =>
    rw [List.map_cons, List.nodup_cons] at hnd
    obtain ⟨hnotin, hnd2⟩ := hnd
    by_cases hh : (h.id : Int) = bid
    · rw [List.find?_cons_of_pos _ (by simpa using hh)]
      rcases List.mem_cons.mp hb with rfl | hb2
      · rfl
      · exfalso
        have hide : h.id = b.id := by omega
        rw [hide] at hnotin
        exact hnotin (List.mem_map_of_mem _ hb2)
    · rw [List.find?_cons_of_neg _ (by simpa using hh)]
      rcases List.mem_cons.mp hb with rfl | hb2
      · exact absurd hid hh
      · exact ih hnd2 hb2

theorem sumBlocks_filter {blocks : List Block} {b : Block}
    (hnd : (blocks.map Block.id).Nodup) (hb : b ∈ blocks) :
    sumBlocks (blocks.filter (fun x => x.id != b.id)) + b.size = sumBlocks blocks := by
  induction blocks with
  | nil => cases hb
  | cons h hs ih =>
    rw [List.map_cons, List.nodup_cons] at hnd
    obtain ⟨hnotin, hnd2⟩ := hnd
    rcases List.mem_cons.mp hb with rfl | hb2
    · rw [List.filter_cons, if_neg (by simp)]
      rw [List.filter_eq_self.mpr]
      · simp only [sumBlocks]; omega
      · intro x hx
        refine bne_iff_ne.mpr fun he => ?_
        rw [← he] at hnotin
        exact hnotin (List.mem_map_of_mem _ hx)
    · have hne : h.id ≠ b.id := fun he => by
        rw [he] at hnotin
        exact hnotin (List.mem_map_of_mem _ hb2)
      rw [List.filter_cons, if_pos (bne_iff_ne.mpr hne)]
      have := ih hnd2 hb2
      simp only [sumBlocks]
      omega

/-- One-step preservation relation: the successor state is internally
consistent, free plus allocated bytes are conserved, and the partition
bounds and devkit version are untouched. -/
abbrev StepOk (s s2 : KState) : Prop :=
  Inv s2 ∧
  totalFree s2.free + sumBlocks s2.blocks = totalFree s.free + sumBlocks s.blocks ∧
  s2.pbase = s.pbase ∧ s2.plen = s.plen ∧ s2.devkitVer = s.devkitVer

theorem stepOk_id {s : KState} (hInv : Inv s) : StepOk s s :=
  ⟨hInv, rfl, rfl, rfl, rfl⟩

theorem stepOk_trans {s1 s2 s3 : KState} (h1 : StepOk s1 s2) (h2 : StepOk s2 s3) :
    StepOk s1 s3 := by
  obtain ⟨a1, a2, a3, a4, a5⟩ := h1
  obtain ⟨b1, b2, b3, b4, b5⟩ := h2
  refine ⟨b1, by omega, by rw [b3, a3], by rw [b4, a4], by rw [b5, a5]⟩

theorem mkAlloc_ok {s : KState} {name : String} {base sz : Nat} {free2 : List FreeRange}
    (hInv : Inv s) (hsz : 0 < sz)
    (h1 : List.Pairwise (fun p q => p.base + p.size < q.base) free2)
    (h2 : ∀ r ∈ free2, 0 < r.size)
    (h3 : ∀ r ∈ free2, ∃ r0 ∈ s.free, r0.base ≤ r.base ∧ r.base + r.size ≤ r0.base + r0.size)
    (h4 : ∃ f ∈ s.free, f.base ≤ base ∧ base + sz ≤ f.base + f.size)
    (h5 : ∀ r ∈ free2, r.base + r.size ≤ base ∨ base + sz ≤ r.base)
    (h6 : totalFree free2 + sz = totalFree s.free) :
    StepOk s (mkAlloc s name base sz free2) := by
  obtain ⟨i1, i2, i3, i4, i5, i6, i7, i8, i9, i10, i11⟩ := hInv
  obtain ⟨f, hf, hf1, hf2⟩ := h4
  have hfin := i3 f hf
  simp only [mkAlloc]
  refine ⟨⟨h1, h2, ?_, ?_, ?_, ?_, ?_, ?_, ?_, ?_, ?_⟩, ?_, rfl, rfl, rfl⟩ <;> (try dsimp only)
  · intro r hr
    obtain ⟨r0, hr0, hrb, hre⟩ := h3 r hr
    have := i3 r0 hr0
    omega
  · intro x hx
    rcases List.mem_cons.mp hx with rfl | hx2
    · exact hsz
    · exact i4 x hx2
  · intro x hx
    rcases List.mem_cons.mp hx with rfl | hx2
    · simp only; omega
    · exact i5 x hx2
  · rw [List.pairwise_cons]
    refine ⟨fun b2 hb2 => ?_, i6⟩
    have hd := i7 b2 hb2 f hf
    simp only
    omega
  · intro x hx r hr
    rcases List.mem_cons.mp hx with rfl | hx2
    · have := h5 r hr; simp only; omega
    · obtain ⟨r0, hr0, hrb, hre⟩ := h3 r hr
      have := i7 x hx2 r0 hr0
      omega
  · rw [List.map_cons, List.nodup_cons]
    refine ⟨fun hmem => ?_, i8⟩
    obtain ⟨b2, hb2, hb2id⟩ := List.mem_map.mp hmem
    dsimp only at hb2id
    have := i10 b2.id (i9 b2 hb2)
    omega
  · intro x hx
    rcases List.mem_cons.mp hx with rfl | hx2
    · exact List.mem_cons_self _ _
    · exact List.mem_cons_of_mem _ (i9 x hx2)
  · intro i hi
    rcases List.mem_cons.mp hi with rfl | hi2
    · omega
    · have := i10 i hi2; omega
  · rw [List.nodup_cons]
    exact ⟨fun hm => absurd (i10 _ hm) (by omega), i11⟩
  · simp only [sumBlocks]
    omega

theorem allocCore_ok {s : KState} {name : String} {p : Placement} {sz a : Nat}
    (hInv : Inv s) (hsz : 0 < sz) :
    StepOk s (allocCore s name p sz a).2 := by
  have i1 := hInv.1
  have i2 := hInv.2.1
  cases p with
  | low =>
    simp only [allocCore]
    cases hm : allocLow sz s.free with
    | none => exact stepOk_id hInv
    | some pr =>
      obtain ⟨a0, free2⟩ := pr
      obtain ⟨j1, j2, j3, j4, j5, j6⟩ := allocLow_spec i1 i2 hm
      obtain ⟨f, hf, hfsz, rfl, _⟩ := j4
      exact mkAlloc_ok hInv hsz j1 j2 j3 ⟨f, hf, le_refl _, by omega⟩ j5 j6
  | high =>
    simp only [allocCore]
    cases hm : allocHigh sz s.free with
    | none => exact stepOk_id hInv
    | some pr =>
      obtain ⟨a0, free2⟩ := pr
      obtain ⟨j1, j2, j3, j4, j5, j6⟩ := allocHigh_spec i1 i2 hm
      obtain ⟨f, hf, hfsz, hfb, hfe, _⟩ := j4
      exact mkAlloc_ok hInv hsz j1 j2 j3 ⟨f, hf, hfb, by omega⟩ j5 j6
  | addr =>
    simp only [allocCore]
    cases hm : allocAddr a sz s.free with
    | none => exact stepOk_id hInv
    | some free2 =>
      obtain ⟨j1, j2, j3, j4, j5, j6⟩ := allocAddr_spec i1 i2 hsz hm
      exact mkAlloc_ok hInv hsz j1 j2 j3 j4 j5 j6

theorem allocPart_ok {s : KState} {name : String} {t : Int} {sz a : Nat}
    (hInv : Inv s) :
    StepOk s (sceKernelAllocPartitionMemory s name t sz a).2 := by
  simp only [sceKernelAllocPartitionMemory]
  by_cases hsz : sz = 0
  · rw [if_pos hsz]; exact stepOk_id hInv
  · rw [if_neg hsz]
    cases decodePlacement t with
    | none => exact stepOk_id hInv
    | some p => exact allocCore_ok hInv (Nat.pos_of_ne_zero hsz)

theorem allocBlock_ok {s : KState} (name : Option String) (t : Int) (sz : Nat)
    (opt : Option Nat) (hInv : Inv s) :
    StepOk s (sceKernelAllocMemoryBlock s name t sz opt).2 := by
  cases name with
  | none => exact stepOk_id hInv
  | some n =>
    simp only [sceKernelAllocMemoryBlock]
    by_cases ht : t ≠ 0 ∧ t ≠ 1
    · rw [if_pos ht]; exact stepOk_id hInv
    · rw [if_neg ht]
      by_cases hsz : sz = 0
      · rw [if_pos hsz]; exact stepOk_id hInv
      · rw [if_neg hsz]
        exact allocCore_ok hInv (Nat.pos_of_ne_zero hsz)

theorem freeCore_ok {s : KState} {bid : Int} (hInv : Inv s) :
    StepOk s (freeCore s bid).2 := by
  simp only [freeCore]
  cases hfind : s.blocks.find? (fun x => (x.id : Int) == bid) with
  | none => exact stepOk_id hInv
  | some b =>
    dsimp only
    obtain ⟨i1, i2, i3, i4, i5, i6, i7, i8, i9, i10, i11⟩ := hInv
    have hbmem := List.mem_of_find?_eq_some hfind
    have hbpos := i4 b hbmem
    have hbdisj : ∀ g ∈ s.free, g.base + g.size ≤ b.base ∨ b.base + b.size ≤ g.base :=
      fun g hg => (i7 b hbmem g hg).elim Or.inr Or.inl
    have hsubf := List.filter_sublist (p := fun x => x.id != b.id) s.blocks
    refine ⟨⟨?_, ?_, ?_, ?_, ?_, ?_, ?_, ?_, ?_, i10, i11⟩, ?_, rfl, rfl, rfl⟩
    · exact insertFree_sorted i1 i2 hbpos hbdisj
    · exact insertFree_pred (P := fun r => 0 < r.size)
        (fun p q hp hq he => by simp only; omega) hbpos i2
    · exact insertFree_pred
        (P := fun r => s.pbase ≤ r.base ∧ r.base + r.size ≤ s.pbase + s.plen)
        (fun p q hp hq he => by simp only at *; omega) (i5 b hbmem) i3
    · exact fun x hx => i4 x (List.mem_filter.mp hx).1
    · exact fun x hx => i5 x (List.mem_filter.mp hx).1
    · exact i6.sublist hsubf
    · intro b2 hb2 r hr
      obtain ⟨hb2m, hb2p⟩ := List.mem_filter.mp hb2
      have hb2ne : b2 ≠ b := fun he => bne_iff_ne.mp hb2p (congrArg Block.id he)
      have hb2pos := i4 b2 hb2m
      have hdisj0 : b2.base + b2.size ≤ b.base ∨ b.base + b.size ≤ b2.base :=
        i6.forall (fun x y h => h.elim Or.inr Or.inl) hb2m hbmem hb2ne
      refine insertFree_pred
        (P := fun r => b2.base + b2.size ≤ r.base ∨ r.base + r.size ≤ b2.base)
        (fun p q hp hq he => by
          rcases hp with hp | hp <;> rcases hq with hq | hq <;> simp only <;> omega)
        hdisj0 (i7 b2 hb2m) r hr
    · exact i8.sublist (hsubf.map Block.id)
    · exact fun x hx => i9 x (List.mem_filter.mp hx).1
    · dsimp only
      rw [insertFree_total]
      have := sumBlocks_filter i8 hbmem
      omega

theorem runOp_ok {s : KState} (op : Op) (hInv : Inv s) :
    StepOk s (runOp s op).2 := by
  cases op with
  | allocPart n t sz a => exact allocPart_ok hInv
  | freePart blockid => exact freeCore_ok hInv
  | allocBlock n t sz opt => exact allocBlock_ok n t sz opt hInv
  | freeBlock mbid => exact freeCore_ok hInv
  | getBlockHead blockid => exact stepOk_id hInv
  | getBlockAddr mbid => exact stepOk_id hInv
  | totalFreeQ => exact stepOk_id hInv
  | maxFreeQ => exact stepOk_id hInv
  | devkitQ => exact stepOk_id hInv
  | setSdk v => exact ⟨hInv, rfl, rfl, rfl, rfl⟩
  | getSdk => exact stepOk_id hInv

theorem execOps_ok {s : KState} (l : List Op) (hInv : Inv s) :
    StepOk s (execOps l s) := by
  induction l generalizing s with
  | nil => exact stepOk_id hInv
  | cons op rest ih =>
    have h1 := runOp_ok op hInv
    exact stepOk_trans h1 (ih h1.1)

theorem init_inv {pbase plen : Nat} {free0 : List FreeRange} (fw : Int)
    (h : WfInit pbase plen free0) : Inv (initState pbase plen free0 fw) := by
  obtain ⟨h1, h2⟩ := h
  exact ⟨h1, fun r hr => (h2 r hr).1, fun r hr => ⟨(h2 r hr).2.1, (h2 r hr).2.2⟩,
    by simp [initState], by simp [initState], by simp [initState], by simp [initState],
    by simp [initState], by simp [initState], by simp [initState], by simp [initState]⟩

theorem reachable_inv {s : KState} (h : Reachable s) : Inv s := by
  obtain ⟨pbase, plen, free0, fw, l, hwf, hexec⟩ := h
  have := execOps_ok l (init_inv fw hwf)
  rw [hexec] at this
  exact this.1

theorem allocCore_err {s : KState} {name : String} {p : Placement} {sz a : Nat}
    (h : (allocCore s name p sz a).1 < 0) : (allocCore s name p sz a).2 = s := by
  cases p <;> simp only [allocCore] at h ⊢
  · cases hm : allocLow sz s.free with
    | none => rfl
    | some pr =>
      obtain ⟨a0, f2⟩ := pr
      rw [hm] at h
      dsimp only at h
      omega
  · cases hm : allocHigh sz s.free with
    | none => rfl
    | some pr =>
      obtain ⟨a0, f2⟩ := pr
      rw [hm] at h
      dsimp only at h
      omega
  · cases hm : allocAddr a sz s.free with
    | none => rfl
    | some f2 =>
      rw [hm] at h
      dsimp only at h
      omega

theorem allocPart_err {s : KState} {name : String} {t : Int} {sz a : Nat}
    (h : (sceKernelAllocPartitionMemory s name t sz a).1 < 0) :
    (sceKernelAllocPartitionMemory s name t sz a).2 = s := by
  simp only [sceKernelAllocPartitionMemory] at h ⊢
  by_cases hsz : sz = 0
  · rw [if_pos hsz]
  · rw [if_neg hsz] at h ⊢
    cases hd : decodePlacement t with
    | none => rfl
    | some p => rw [hd] at h; exact allocCore_err h

theorem allocBlock_err {s : KState} (name : Option String) (t : Int) (sz : Nat)
    (opt : Option Nat) (h : (sceKernelAllocMemoryBlock s name t sz opt).1 < 0) :
    (sceKernelAllocMemoryBlock s name t sz opt).2 = s := by
  cases name with
  | none => rfl
  | some n =>
    simp only [sceKernelAllocMemoryBlock] at h ⊢
    by_cases ht : t ≠ 0 ∧ t ≠ 1
    · rw [if_pos ht]
    · rw [if_neg ht] at h ⊢
      by_cases hsz : sz = 0
      · rw [if_pos hsz]
      · rw [if_neg hsz] at h ⊢
        exact allocCore_err h

theorem freeCore_err {s : KState} {bid : Int}
    (h : (freeCore s bid).1 < 0) : (freeCore s bid).2 = s := by
  simp only [freeCore] at h ⊢
  cases hm : s.blocks.find? (fun x => (x.id : Int) == bid) with
  | none => rfl
  | some b =>
    rw [hm] at h
    dsimp only at h
    omega

theorem allocCore_sdk {s : KState} {name : String} {p : Placement} {sz a : Nat} :
    (allocCore s name p sz a).2.sdkVersion = s.sdkVersion := by
  cases p <;> simp only [allocCore]
  · cases allocLow sz s.free with
    | none => rfl
    | some pr => obtain ⟨a0, f2⟩ := pr; rfl
  · cases allocHigh sz s.free with
    | none => rfl
    | some pr => obtain ⟨a0, f2⟩ := pr; rfl
  · cases allocAddr a sz s.free with
    | none => rfl
    | some f2 => rfl

theorem allocPart_sdk {s : KState} {name : String} {t : Int} {sz a : Nat} :
    (sceKernelAllocPartitionMemory s name t sz a).2.sdkVersion = s.sdkVersion := by
  simp only [sceKernelAllocPartitionMemory]
  by_cases hsz : sz = 0
  · rw [if_pos hsz]
  · rw [if_neg hsz]
    cases decodePlacement t with
    | none => rfl
    | some p => exact allocCore_sdk

theorem allocBlock_sdk {s : KState} (name : Option String) (t : Int) (sz : Nat)
    (opt : Option Nat) :
    (sceKernelAllocMemoryBlock s name t sz opt).2.sdkVersion = s.sdkVersion := by
  cases name with
  | none => rfl
  | some n =>
    simp only [sceKernelAllocMemoryBlock]
    by_cases ht : t ≠ 0 ∧ t ≠ 1
    · rw [if_pos ht]
    · rw [if_neg ht]
      by_cases hsz : sz = 0
      · rw [if_pos hsz]
      · rw [if_neg hsz]
        exact allocCore_sdk

theorem freeCore_sdk {s : KState} {bid : Int} :
    (freeCore s bid).2.sdkVersion = s.sdkVersion := by
  simp only [freeCore]
  cases s.blocks.find? (fun x => (x.id : Int) == bid) with
  | none => rfl
  | some b => rfl

theorem runOp_sdk {s : KState} {op : Op} (h : ∀ w : Int, op ≠ Op.setSdk w) :
    (runOp s op).2.sdkVersion = s.sdkVersion := by
  cases op with
  | allocPart n t sz a => exact allocPart_sdk
  | freePart blockid => exact freeCore_sdk
  | allocBlock n t sz opt => exact allocBlock_sdk n t sz opt
  | freeBlock mbid => exact freeCore_sdk
  | setSdk v => exact absurd rfl (h v)
  | _ => rfl

theorem execOps_sdk {s : KState} {l : List Op}
    (h : ∀ op ∈ l, ∀ w : Int, op ≠ Op.setSdk w) :
    (execOps l s).sdkVersion = s.sdkVersion := by
  induction l generalizing s with
  | nil => rfl
  | cons op rest ih =>
    rw [execOps, ih fun o ho => h o (List.mem_cons_of_mem _ ho)]
    exact runOp_sdk (h op (List.mem_cons_self _ _))

theorem allocCore_issued {s : KState} {name : String} {p : Placement} {sz a : Nat}
    (hlt : ∀ i ∈ s.issued, i < s.nextId) :
    (allocCore s name p sz a).2.issued = s.issued ∨
      (0 ≤ (allocCore s name p sz a).1 ∧ ∃ i : Nat, (allocCore s name p sz a).1 = (i : Int) ∧
        (allocCore s name p sz a).2.issued = i :: s.issued ∧ i ∉ s.issued) := by
  have hni : s.nextId ∉ s.issued := fun hm => absurd (hlt _ hm) (lt_irrefl _)
  cases p <;> simp only [allocCore]
  · cases allocLow sz s.free with
    | none => exact Or.inl rfl
    | some pr =>
      obtain ⟨a0, f2⟩ := pr
      exact Or.inr ⟨by positivity, s.nextId, rfl, rfl, hni⟩
  · cases allocHigh sz s.free with
    | none => exact Or.inl rfl
    | some pr =>
      obtain ⟨a0, f2⟩ := pr
      exact Or.inr ⟨by positivity, s.nextId, rfl, rfl, hni⟩
  · cases allocAddr a sz s.free with
    | none => exact Or.inl rfl
    | some f2 =>
      exact Or.inr ⟨by positivity, s.nextId, rfl, rfl, hni⟩

theorem allocPart_issued {s : KState} {name : String} {t : Int} {sz a : Nat}
    (hlt : ∀ i ∈ s.issued, i < s.nextId) :
    (sceKernelAllocPartitionMemory s name t sz a).2.issued = s.issued ∨
      (0 ≤ (sceKernelAllocPartitionMemory s name t sz a).1 ∧
       ∃ i : Nat, (sceKernelAllocPartitionMemory s name t sz a).1 = (i : Int) ∧
        (sceKernelAllocPartitionMemory s name t sz a).2.issued = i :: s.issued ∧
        i ∉ s.issued) := by
  simp only [sceKernelAllocPartitionMemory]
  by_cases hsz : sz = 0
  · rw [if_pos hsz]; exact Or.inl rfl
  · rw [if_neg hsz]
    cases decodePlacement t with
    | none => exact Or.inl rfl
    | some p => exact allocCore_issued hlt

theorem allocBlock_issued {s : KState} (name : Option String) (t : Int) (sz : Nat)
    (opt : Option Nat) (hlt : ∀ i ∈ s.issued, i < s.nextId) :
    (sceKernelAllocMemoryBlock s name t sz opt).2.issued = s.issued ∨
      (0 ≤ (sceKernelAllocMemoryBlock s name t sz opt).1 ∧
       ∃ i : Nat, (sceKernelAllocMemoryBlock s name t sz opt).1 = (i : Int) ∧
        (sceKernelAllocMemoryBlock s name t sz opt).2.issued = i :: s.issued ∧
        i ∉ s.issued) := by
  cases name with
  | none => exact Or.inl rfl
  | some n =>
    simp only [sceKernelAllocMemoryBlock]
    by_cases ht : t ≠ 0 ∧ t ≠ 1
    · rw [if_pos ht]; exact Or.inl rfl
    · rw [if_neg ht]
      by_cases hsz : sz = 0
      · rw [if_pos hsz]; exact Or.inl rfl
      · rw [if_neg hsz]
        exact allocCore_issued hlt

theorem freeCore_issued {s : KState} {bid : Int} :
    (freeCore s bid).2.issued = s.issued := by
  simp only [freeCore]
  cases s.blocks.find? (fun x => (x.id : Int) == bid) with
  | none => rfl
  | some b => rfl

/-- C1: in every reachable manager state the address ranges of two
distinct live blocks of the partition never intersect; reachability
closes the property under every allocate and free call. -/
theorem no_overlap_invariant (s : KState) (h : Reachable s) :
    ∀ b1 ∈ s.blocks, ∀ b2 ∈ s.blocks, b1 ≠ b2 →
      b1.base + b1.size ≤ b2.base ∨ b2.base + b2.size ≤ b1.base := by
  have hInv := reachable_inv h
  exact fun b1 h1 b2 h2 hne =>
    hInv.2.2.2.2.2.1.forall (fun x y hxy => hxy.elim Or.inr Or.inl) h1 h2 hne

theorem no_overlap_invariant_applied :
    (⟨2, 4, 4, "b"⟩ : Block).base + (⟨2, 4, 4, "b"⟩ : Block).size ≤
        (⟨1, 0, 4, "a"⟩ : Block).base ∨
    (⟨1, 0, 4, "a"⟩ : Block).base + (⟨1, 0, 4, "a"⟩ : Block).size ≤
        (⟨2, 4, 4, "b"⟩ : Block).base :=
  no_overlap_invariant
    (execOps [Op.allocPart "a" 0 4 0, Op.allocPart "b" 0 4 0]
      (initState 0 16 [⟨0, 16⟩] 0))
    ⟨0, 16, [⟨0, 16⟩], 0, [Op.allocPart "a" 0 4 0, Op.allocPart "b" 0 4 0],
      by decide, rfl⟩
    ⟨2, 4, 4, "b"⟩ (by decide) ⟨1, 0, 4, "a"⟩ (by decide) (by decide)

/-- C3: along every run from a well-formed initial state, the free bytes
of the tracker plus the bytes of the live blocks plus the pre-existing
reserved gap (the part of the partition the initial tracker does not
cover) equal the partition length, and the partition length itself never
changes; every allocate and free call preserves the equation. -/
theorem conservation_equation (pbase plen : Nat) (free0 : List FreeRange) (fw : Int)
    (l : List Op) (h : WfInit pbase plen free0) :
    totalFree (execOps l (initState pbase plen free0 fw)).free +
      sumBlocks (execOps l (initState pbase plen free0 fw)).blocks +
      (plen - totalFree free0) = plen ∧
    (execOps l (initState pbase plen free0 fw)).plen = plen := by
  obtain ⟨_, hacc, _, hplen, _⟩ := execOps_ok l (init_inv fw h)
  have hb := totalFree_le_of_bounds h.1 fun r hr => ⟨(h.2 r hr).2.1, (h.2 r hr).2.2⟩
  have e1 : (initState pbase plen free0 fw).free = free0 := rfl
  have e2 : sumBlocks (initState pbase plen free0 fw).blocks = 0 := rfl
  have e3 : (initState pbase plen free0 fw).plen = plen := rfl
  rw [e1, e2] at hacc
  rw [e3] at hplen
  exact ⟨by omega, hplen⟩

theorem conservation_equation_applied :
    totalFree (execOps [Op.allocPart "a" 0 300 0, Op.allocPart "b" 1 300 0,
        Op.freePart 1] (initState 0 1000 [⟨0, 1000⟩] 0)).free +
      sumBlocks (execOps [Op.allocPart "a" 0 300 0, Op.allocPart "b" 1 300 0,
        Op.freePart 1] (initState 0 1000 [⟨0, 1000⟩] 0)).blocks +
      (1000 - totalFree [⟨0, 1000⟩]) = 1000 ∧
    (execOps [Op.allocPart "a" 0 300 0, Op.allocPart "b" 1 300 0,
        Op.freePart 1] (initState 0 1000 [⟨0, 1000⟩] 0)).plen = 1000 :=
  conservation_equation 0 1000 [⟨0, 1000⟩] 0
    [Op.allocPart "a" 0 300 0, Op.allocPart "b" 1 300 0, Op.freePart 1] (by decide)

/-- C4: in every reachable state the ghost history of issued identifiers
has no duplicate, and any call either leaves the history unchanged or is
a successful allocation returning an identifier that was never issued
before, appended to the history; hence no two allocations of one manager
lifetime return the same identifier, and a freed identifier, which stays
in the history, is never handed out again. -/
theorem identifier_uniqueness (s : KState) (h : Reachable s) :
    s.issued.Nodup ∧
    ∀ op : Op, (runOp s op).2.issued = s.issued ∨
      (0 ≤ (runOp s op).1 ∧ ∃ i : Nat, (runOp s op).1 = (i : Int) ∧
        (runOp s op).2.issued = i :: s.issued ∧ i ∉ s.issued) := by
  have hInv := reachable_inv h
  have hlt : ∀ i ∈ s.issued, i < s.nextId := hInv.2.2.2.2.2.2.2.2.2.1
  refine ⟨hInv.2.2.2.2.2.2.2.2.2.2, fun op => ?_⟩
  cases op with
  | allocPart n t sz a => exact allocPart_issued hlt
  | allocBlock n t sz opt => exact allocBlock_issued n t sz opt hlt
  | freePart blockid => exact Or.inl freeCore_issued
  | freeBlock mbid => exact Or.inl freeCore_issued
  | setSdk v => exact Or.inl rfl
  | _ => exact Or.inl rfl

theorem identifier_uniqueness_applied :
    (runOp (execOps [Op.allocPart "a" 0 4 0, Op.freePart 1]
        (initState 0 16 [⟨0, 16⟩] 0)) (Op.allocPart "b" 0 4 0)).2.issued =
      (execOps [Op.allocPart "a" 0 4 0, Op.freePart 1]
        (initState 0 16 [⟨0, 16⟩] 0)).issued ∨
    (0 ≤ (runOp (execOps [Op.allocPart "a" 0 4 0, Op.freePart 1]
        (initState 0 16 [⟨0, 16⟩] 0)) (Op.allocPart "b" 0 4 0)).1 ∧
     ∃ i : Nat,
      (runOp (execOps [Op.allocPart "a" 0 4 0, Op.freePart 1]
        (initState 0 16 [⟨0, 16⟩] 0)) (Op.allocPart "b" 0 4 0)).1 = (i : Int) ∧
      (runOp (execOps [Op.allocPart "a" 0 4 0, Op.freePart 1]
        (initState 0 16 [⟨0, 16⟩] 0)) (Op.allocPart "b" 0 4 0)).2.issued =
        i :: (execOps [Op.allocPart "a" 0 4 0, Op.freePart 1]
          (initState 0 16 [⟨0, 16⟩] 0)).issued ∧
      i ∉ (execOps [Op.allocPart "a" 0 4 0, Op.freePart 1]
        (initState 0 16 [⟨0, 16⟩] 0)).issued) :=
  (identifier_uniqueness
    (execOps [Op.allocPart "a" 0 4 0, Op.freePart 1] (initState 0 16 [⟨0, 16⟩] 0))
    ⟨0, 16, [⟨0, 16⟩], 0, [Op.allocPart "a" 0 4 0, Op.freePart 1],
      by decide, rfl⟩).2 (Op.allocPart "b" 0 4 0)

/-- C6: the family-2 allocation entry point rejects every placement value
other than Low (0) and High (1), returning a negative error code and
leaving the state untouched. -/
theorem family2_rejects_addr_placement (s : KState) (name : Option String)
    (sz : Nat) (opt : Option Nat) (t : Int) (h0 : t ≠ 0) (h1 : t ≠ 1) :
    (sceKernelAllocMemoryBlock s name t sz opt).1 < 0 ∧
    (sceKernelAllocMemoryBlock s name t sz opt).2 = s := by
  cases name with
  | none => exact ⟨show errCode Err.invalidArgument < 0 by decide, rfl⟩
  | some n =>
    simp only [sceKernelAllocMemoryBlock]
    rw [if_pos ⟨h0, h1⟩]
    exact ⟨show errCode Err.illegalPlacementType < 0 by decide, rfl⟩

theorem family2_rejects_addr_placement_applied :
    (sceKernelAllocMemoryBlock (initState 0 16 [⟨0, 16⟩] 0) (some "x") 2 4 none).1 < 0 ∧
    (sceKernelAllocMemoryBlock (initState 0 16 [⟨0, 16⟩] 0) (some "x") 2 4 none).2 =
      initState 0 16 [⟨0, 16⟩] 0 :=
  family2_rejects_addr_placement (initState 0 16 [⟨0, 16⟩] 0) (some "x") 4 none 2
    (by decide) (by decide)

/-- C7: a zero-size request through the family-1 allocation entry point
fails with InvalidArgument for every state, name, and placement argument,
and the whole manager state, tracker and identifier table included, is
returned unchanged. -/
theorem zero_size_rejected (s : KState) (name : String) (t : Int) (a : Nat) :
    sceKernelAllocPartitionMemory s name t 0 a = (errCode Err.invalidArgument, s) := by
  rfl

/-- C8: every call whose result is negative leaves the state exactly as
it was, and freeing an identifier that designates no live block fails
with UnknownBlock, the state again unchanged. -/
theorem failure_atomicity (s : KState) (op : Op) (bid : Int)
    (herr : (runOp s op).1 < 0)
    (hunk : ∀ b ∈ s.blocks, (b.id : Int) ≠ bid) :
    (runOp s op).2 = s ∧
    sceKernelFreePartitionMemory s bid = (errCode Err.unknownBlock, s) := by
  constructor
  · cases op with
    | allocPart n t sz a => exact allocPart_err herr
    | freePart blockid => exact freeCore_err herr
    | allocBlock n t sz opt => exact allocBlock_err n t sz opt herr
    | freeBlock mbid => exact freeCore_err herr
    | setSdk v => simp [runOp, sceKernelSetCompiledSdkVersion] at herr
    | _ => rfl
  · have hfind : s.blocks.find? (fun x => (x.id : Int) == bid) = none :=
      List.find?_eq_none.mpr fun x hx => by simpa using hunk x hx
    simp [sceKernelFreePartitionMemory, freeCore, hfind]

theorem failure_atomicity_applied :
    (runOp (initState 0 16 [⟨0, 16⟩] 0) (Op.allocPart "x" 0 32 0)).2 =
      initState 0 16 [⟨0, 16⟩] 0 ∧
    sceKernelFreePartitionMemory (initState 0 16 [⟨0, 16⟩] 0) 7 =
      (errCode Err.unknownBlock, initState 0 16 [⟨0, 16⟩] 0) :=
  failure_atomicity (initState 0 16 [⟨0, 16⟩] 0) (Op.allocPart "x" 0 32 0) 7
    (by decide) (by decide)

/-- C9: the compiled-SDK-version cell reads 0 along any run that never
stores into it; a store of v succeeds with status 0, touches none of the
allocator fields, and subsequent reads return v along any further run
without another store. -/
theorem sdk_version_semantics (pbase plen : Nat) (free0 : List FreeRange)
    (fw v : Int) (l l2 : List Op)
    (h1 : ∀ op ∈ l, ∀ w : Int, op ≠ Op.setSdk w)
    (h2 : ∀ op ∈ l2, ∀ w : Int, op ≠ Op.setSdk w) :
    sceKernelGetCompiledSdkVersion (execOps l (initState pbase plen free0 fw)) = 0 ∧
    ∀ s : KState,
      sceKernelGetCompiledSdkVersion
        (execOps l2 (sceKernelSetCompiledSdkVersion s v).2) = v ∧
      (sceKernelSetCompiledSdkVersion s v).1 = 0 ∧
      (sceKernelSetCompiledSdkVersion s v).2.free = s.free ∧
      (sceKernelSetCompiledSdkVersion s v).2.blocks = s.blocks ∧
      (sceKernelSetCompiledSdkVersion s v).2.nextId = s.nextId ∧
      (sceKernelSetCompiledSdkVersion s v).2.issued = s.issued ∧
      (sceKernelSetCompiledSdkVersion s v).2.pbase = s.pbase ∧
      (sceKernelSetCompiledSdkVersion s v).2.plen = s.plen := by
  constructor
  · show (execOps l (initState pbase plen free0 fw)).sdkVersion = 0
    rw [execOps_sdk h1]
    rfl
  · intro s
    refine ⟨?_, rfl, rfl, rfl, rfl, rfl, rfl, rfl⟩
    show (execOps l2 (sceKernelSetCompiledSdkVersion s v).2).sdkVersion = v
    rw [execOps_sdk h2]
    rfl

theorem sdk_version_semantics_applied :
    sceKernelGetCompiledSdkVersion
      (execOps [] (sceKernelSetCompiledSdkVersion (initState 0 16 [⟨0, 16⟩] 0) 5).2) = 5 ∧
    (sceKernelSetCompiledSdkVersion (initState 0 16 [⟨0, 16⟩] 0) 5).1 = 0 ∧
    (sceKernelSetCompiledSdkVersion (initState 0 16 [⟨0, 16⟩] 0) 5).2.free =
      (initState 0 16 [⟨0, 16⟩] 0).free ∧
    (sceKernelSetCompiledSdkVersion (initState 0 16 [⟨0, 16⟩] 0) 5).2.blocks =
      (initState 0 16 [⟨0, 16⟩] 0).blocks ∧
    (sceKernelSetCompiledSdkVersion (initState 0 16 [⟨0, 16⟩] 0) 5).2.nextId =
      (initState 0 16 [⟨0, 16⟩] 0).nextId ∧
    (sceKernelSetCompiledSdkVersion (initState 0 16 [⟨0, 16⟩] 0) 5).2.issued =
      (initState 0 16 [⟨0, 16⟩] 0).issued ∧
    (sceKernelSetCompiledSdkVersion (initState 0 16 [⟨0, 16⟩] 0) 5).2.pbase =
      (initState 0 16 [⟨0, 16⟩] 0).pbase ∧
    (sceKernelSetCompiledSdkVersion (initState 0 16 [⟨0, 16⟩] 0) 5).2.plen =
      (initState 0 16 [⟨0, 16⟩] 0).plen :=
  (sdk_version_semantics 0 16 [⟨0, 16⟩] 0 5 [] [] (by simp) (by simp)).2
    (initState 0 16 [⟨0, 16⟩] 0)

/-- C10: the family-2 allocation entry point rejects a NULL name with the
negative InvalidArgument code for every placement, size, and option
argument without touching the state, while names are never checked for
uniqueness: a run exists after which two distinct live blocks carry the
same name. -/
theorem family2_requires_name (s : KState) (t : Int) (sz : Nat) (opt : Option Nat) :
    errCode Err.invalidArgument < 0 ∧
    sceKernelAllocMemoryBlock s none t sz opt = (errCode Err.invalidArgument, s) ∧
    (∃ b1 ∈ (execOps [Op.allocBlock (some "x") 0 4 none,
        Op.allocBlock (some "x") 0 4 none] (initState 0 64 [⟨0, 64⟩] 0)).blocks,
     ∃ b2 ∈ (execOps [Op.allocBlock (some "x") 0 4 none,
        Op.allocBlock (some "x") 0 4 none] (initState 0 64 [⟨0, 64⟩] 0)).blocks,
       b1.id ≠ b2.id ∧ b1.name = b2.name) := by
  exact ⟨by decide, rfl, by decide⟩

/-- C2: on a consistent state and a nonzero size, a successful Low (0)
allocation carves from the low end of the lowest-based free range able to
hold the size, a successful High (1) allocation carves from the high end
of the highest-based such range, failure of either means no free range is
large enough, and an Addr (2) allocation succeeds exactly when every
address of [a, a+size) is free, placing the block at a, and otherwise
fails with AddressUnavailable leaving the state unchanged. -/
theorem placement_correctness (s : KState) (name : String) (sz a : Nat)
    (hInv : Inv s) (hsz : 0 < sz) :
    (0 ≤ (sceKernelAllocPartitionMemory s name 0 sz a).1 →
      ∃ blk, (sceKernelAllocPartitionMemory s name 0 sz a).2.blocks = blk :: s.blocks ∧
        blk.size = sz ∧ ∃ f ∈ s.free, sz ≤ f.size ∧ blk.base = f.base ∧
          ∀ g ∈ s.free, sz ≤ g.size → f.base ≤ g.base) ∧
    ((sceKernelAllocPartitionMemory s name 0 sz a).1 < 0 →
      ∀ g ∈ s.free, g.size < sz) ∧
    (0 ≤ (sceKernelAllocPartitionMemory s name 1 sz a).1 →
      ∃ blk, (sceKernelAllocPartitionMemory s name 1 sz a).2.blocks = blk :: s.blocks ∧
        blk.size = sz ∧ ∃ f ∈ s.free, sz ≤ f.size ∧ blk.base + sz = f.base + f.size ∧
          ∀ g ∈ s.free, sz ≤ g.size → g.base ≤ f.base) ∧
    ((sceKernelAllocPartitionMemory s name 1 sz a).1 < 0 →
      ∀ g ∈ s.free, g.size < sz) ∧
    ((0 ≤ (sceKernelAllocPartitionMemory s name 2 sz a).1) ↔
      (∀ x, a ≤ x → x < a + sz → isFree s.free x)) ∧
    (¬ (∀ x, a ≤ x → x < a + sz → isFree s.free x) →
      sceKernelAllocPartitionMemory s name 2 sz a = (errCode Err.addressUnavailable, s)) ∧
    (0 ≤ (sceKernelAllocPartitionMemory s name 2 sz a).1 →
      ∃ blk, (sceKernelAllocPartitionMemory s name 2 sz a).2.blocks = blk :: s.blocks ∧
        blk.size = sz ∧ blk.base = a) := by
  have hne : ¬ (sz = 0) := by omega
  have hu0 : sceKernelAllocPartitionMemory s name 0 sz a =
      allocCore s name Placement.low sz a := by
    rw [sceKernelAllocPartitionMemory, if_neg hne]
    rfl
  have hu1 : sceKernelAllocPartitionMemory s name 1 sz a =
      allocCore s name Placement.high sz a := by
    rw [sceKernelAllocPartitionMemory, if_neg hne]
    rfl
  have hu2 : sceKernelAllocPartitionMemory s name 2 sz a =
      allocCore s name Placement.addr sz a := by
    rw [sceKernelAllocPartitionMemory, if_neg hne]
    rfl
  rw [hu0, hu1, hu2]
  simp only [allocCore]
  refine ⟨?_, ?_, ?_, ?_, ?_, ?_, ?_⟩
  · cases hm : allocLow sz s.free with
    | none =>
      intro h06
      dsimp only at h06
      exact absurd h06 (by decide)
    | some pr =>
      obtain ⟨a0, f2⟩ := pr
      intro _
      obtain ⟨_, _, _, j4, _, _⟩ := allocLow_spec hInv.1 hInv.2.1 hm
      obtain ⟨f, hf, hfsz, ha0, hmin⟩ := j4
      exact ⟨⟨s.nextId, a0, sz, name⟩, rfl, rfl, f, hf, hfsz, ha0, hmin⟩
  · cases hm : allocLow sz s.free with
    | none => intro _; exact allocLow_none hm
    | some pr =>
      obtain ⟨a0, f2⟩ := pr
      intro h05
      dsimp only at h05
      omega
  · cases hm : allocHigh sz s.free with
    | none =>
      intro h06
      dsimp only at h06
      exact absurd h06 (by decide)
    | some pr =>
      obtain ⟨a0, f2⟩ := pr
      intro _
      obtain ⟨_, _, _, j4, _, _⟩ := allocHigh_spec hInv.1 hInv.2.1 hm
      obtain ⟨f, hf, hfsz, hfb, hfe, hmax⟩ := j4
      exact ⟨⟨s.nextId, a0, sz, name⟩, rfl, rfl, f, hf, hfsz, hfe, hmax⟩
  · cases hm : allocHigh sz s.free with
    | none => intro _; exact allocHigh_none hm
    | some pr =>
      obtain ⟨a0, f2⟩ := pr
      intro h05
      dsimp only at h05
      omega
  · cases hm : allocAddr a sz s.free with
    | none =>
      constructor
      · intro h06
        dsimp only at h06
        exact absurd h06 (by decide)
      · intro hcov
        exfalso
        obtain ⟨f, hf, hf1, hf2⟩ := covered_sub hInv.1 hsz hcov
        obtain ⟨f2, hm2⟩ := allocAddr_some_iff.mpr ⟨f, hf, hf1, hf2⟩
        rw [hm] at hm2
        cases hm2
    | some f2 =>
      constructor
      · intro _ x hx1 hx2
        obtain ⟨_, _, _, j4, _, _⟩ := allocAddr_spec hInv.1 hInv.2.1 hsz hm
        obtain ⟨f, hf, hf1, hf2⟩ := j4
        exact ⟨f, hf, by omega, by omega⟩
      · intro _
        dsimp only
        positivity
  · intro hncov
    cases hm : allocAddr a sz s.free with
    | none => rfl
    | some f2 =>
      exfalso
      apply hncov
      obtain ⟨_, _, _, j4, _, _⟩ := allocAddr_spec hInv.1 hInv.2.1 hsz hm
      obtain ⟨f, hf, hf1, hf2⟩ := j4
      intro x hx1 hx2
      exact ⟨f, hf, by omega, by omega⟩
  · cases hm : allocAddr a sz s.free with
    | none =>
      intro h06
      dsimp only at h06
      exact absurd h06 (by decide)
    | some f2 =>
      intro _
      exact ⟨⟨s.nextId, a, sz, name⟩, rfl, rfl, rfl⟩

theorem placement_correctness_applied :
    (0 ≤ (sceKernelAllocPartitionMemory (initState 0 1000 [⟨0, 1000⟩] 0)
        "w" 2 300 100).1) ↔
    (∀ x, 100 ≤ x → x < 100 + 300 →
      isFree (initState 0 1000 [⟨0, 1000⟩] 0).free x) :=
  (placement_correctness (initState 0 1000 [⟨0, 1000⟩] 0) "w" 300 100
    (by decide) (by decide)).2.2.2.2.1

/-- C5 as stated is false: in a reachable state of a 1000-byte partition
whose tracker holds a 500-byte range and a 10-byte range, freeing the
10-byte block adjacent to the 10-byte range coalesces them into 20 bytes,
yet largest_free_contiguous stays 500, an increase below the freed size. -/
theorem coalescing_claim_false :
    WfInit 0 1000 [⟨0, 1000⟩] ∧
    (∃ b ∈ (execOps [Op.allocPart "x" 2 100 500, Op.allocPart "y" 2 10 610,
        Op.allocPart "z" 2 380 620] (initState 0 1000 [⟨0, 1000⟩] 0)).blocks,
      (b.id : Int) = 2 ∧ b.size = 10 ∧
      (∃ r ∈ (execOps [Op.allocPart "x" 2 100 500, Op.allocPart "y" 2 10 610,
          Op.allocPart "z" 2 380 620] (initState 0 1000 [⟨0, 1000⟩] 0)).free,
        r.base + r.size = b.base ∨ b.base + b.size = r.base) ∧
      maxFree (sceKernelFreePartitionMemory
          (execOps [Op.allocPart "x" 2 100 500, Op.allocPart "y" 2 10 610,
            Op.allocPart "z" 2 380 620] (initState 0 1000 [⟨0, 1000⟩] 0)) 2).2.free <
        maxFree (execOps [Op.allocPart "x" 2 100 500, Op.allocPart "y" 2 10 610,
          Op.allocPart "z" 2 380 620] (initState 0 1000 [⟨0, 1000⟩] 0)).free + b.size) := by
  exact ⟨by decide, by decide⟩

/-- C5 amended: freeing a live block adjacent to an existing free range
coalesces block and range into one free range of size at least the sum of
the two, which contains the whole block, so largest_free_contiguous
afterwards is at least freed size plus adjacent range size; moreover
largest_free_contiguous never shrinks across a free.  It need not grow by
the freed size when the largest free range lies elsewhere. -/
theorem coalescing_merges_adjacent (s : KState) (hInv : Inv s) (b : Block)
    (r : FreeRange) (hb : b ∈ s.blocks) (hr : r ∈ s.free)
    (hadj : r.base + r.size = b.base ∨ b.base + b.size = r.base) :
    (sceKernelFreePartitionMemory s (b.id : Int)).1 = 0 ∧
    maxFree s.free ≤ maxFree (sceKernelFreePartitionMemory s (b.id : Int)).2.free ∧
    ∃ x ∈ (sceKernelFreePartitionMemory s (b.id : Int)).2.free,
      x.base ≤ b.base ∧ b.base + b.size ≤ x.base + x.size ∧
      b.size + r.size ≤ x.size ∧
      b.size + r.size ≤ maxFree (sceKernelFreePartitionMemory s (b.id : Int)).2.free := by
  obtain ⟨i1, i2, i3, i4, i5, i6, i7, i8, i9, i10, i11⟩ := hInv
  have hfind := find_block i8 hb rfl
  simp only [sceKernelFreePartitionMemory, freeCore, hfind]
  have hbpos := i4 b hb
  have hbdisj : ∀ g ∈ s.free, g.base + g.size ≤ b.base ∨ b.base + b.size ≤ g.base :=
    fun g hg => (i7 b hb g hg).elim Or.inr Or.inl
  refine ⟨trivial, ?_, ?_⟩
  · refine maxFree_le fun r0 h0 => ?_
    obtain ⟨x, hx, hxs⟩ := insertFree_mono r0 h0
    exact le_trans hxs (le_maxFree_of_mem hx)
  · obtain ⟨x, hx, hxb, hxe, hxs⟩ := insertFree_adj i1 i2 hbpos hbdisj hr hadj
    exact ⟨x, hx, hxb, hxe, by omega,
      le_trans (by omega) (le_maxFree_of_mem hx)⟩

theorem coalescing_merges_adjacent_applied :
    maxFree (execOps [Op.allocPart "x" 2 100 500, Op.allocPart "y" 2 10 610,
        Op.allocPart "z" 2 380 620] (initState 0 1000 [⟨0, 1000⟩] 0)).free ≤
    maxFree (sceKernelFreePartitionMemory
        (execOps [Op.allocPart "x" 2 100 500, Op.allocPart "y" 2 10 610,
          Op.allocPart "z" 2 380 620] (initState 0 1000 [⟨0, 1000⟩] 0))
        ((2 : Nat) : Int)).2.free :=
  (coalescing_merges_adjacent
    (execOps [Op.allocPart "x" 2 100 500, Op.allocPart "y" 2 10 610,
      Op.allocPart "z" 2 380 620] (initState 0 1000 [⟨0, 1000⟩] 0))
    (by decide) ⟨2, 610, 10, "y"⟩ ⟨600, 10⟩ (by decide) (by decide) (by decide)).2.1

end PspSysMem
